import Mathlib

/-!
Verification of the Unicode case-conversion engine in
`src/common/unicode_case.c`, together with the word-boundary iterator
`initcap_wbnext` from `src/backend/utils/adt/pg_locale_builtin.c`.

The embedding models byte strings as `List Nat` (one `Nat` per byte) and the
destination buffer as a total byte store `Nat → Nat`.  Out-of-range reads are
modelled as the byte 0 (in C such reads would be undefined behaviour; all
claims either quantify over well-formed inputs or are insensitive to the
choice).  `srclen` is modelled as a `Nat`: in the C source the parameter has
type `size_t`, so the textual condition `srclen < 0` in the loop guard is
identically false and the guard reduces to `src[srcoff] != '\0' &&
srcoff < srclen`; the "negative length" sentinel used by callers corresponds
to a very large `srclen`.

The Unicode case-map table, the UTF-8 codec of `mb/pg_wchar.h`, and the
character-class predicates of `common/unicode_category.c` are not part of the
given sources; they are either taken as parameters (a `UnicodeCtx`) or
modelled from the spec where a concrete instance is needed.
-/

/-- CaseKind enumeration from the source: lower, title, upper. -/
inductive CaseKind where
  | CaseLower : CaseKind
  | CaseTitle : CaseKind
  | CaseUpper : CaseKind
deriving DecidableEq, Repr

open CaseKind

/-- PG_U_MAX_CASE_EXPANSION from `common/unicode_case.h`: the maximum number of
codepoints that can result from mapping a single codepoint. -/
def PG_U_MAX_CASE_EXPANSION : Nat := 3

/-- Modelled from the spec: the `PG_U_FINAL_SIGMA` condition bit declared in
the generated table header `common/unicode_case_table.h` (not in src). -/
def PG_U_FINAL_SIGMA : Nat := 1

/-- A special (conditional / one-to-many) case mapping for one codepoint.
Each map is a fixed-capacity sequence of `PG_U_MAX_CASE_EXPANSION` = 3
codepoints, zero-terminated when shorter. -/
structure pg_special_case where
  codepoint : Nat
  conditions : Nat
  map_lower : Nat × Nat × Nat
  map_title : Nat × Nat × Nat
  map_upper : Nat × Nat × Nat
deriving DecidableEq, Repr

/-- Select the fixed-capacity map for a case kind (C: `special->map[casekind]`). -/
def pg_special_case.map (sp : pg_special_case) : CaseKind → Nat × Nat × Nat
  | CaseLower => sp.map_lower
  | CaseTitle => sp.map_title
  | CaseUpper => sp.map_upper

/-- The codepoints actually emitted from a fixed-capacity special map: the C
loop iterates the three slots in order and breaks at the first zero. -/
def specialList (m : Nat × Nat × Nat) : List Nat :=
  if m.1 = 0 then []
  else if m.2.1 = 0 then [m.1]
  else if m.2.2 = 0 then [m.1, m.2.1]
  else [m.1, m.2.1, m.2.2]

/-- One entry of the case-map table: a codepoint, its three simple mappings,
and an optional special case. -/
structure pg_case_map where
  codepoint : Nat
  simple_lower : Nat
  simple_title : Nat
  simple_upper : Nat
  special_case : Option pg_special_case
deriving DecidableEq, Repr

/-- Select the simple mapping for a case kind (C: `casemap->simplemap[casekind]`). -/
def pg_case_map.simplemap (m : pg_case_map) : CaseKind → Nat
  | CaseLower => m.simple_lower
  | CaseTitle => m.simple_title
  | CaseUpper => m.simple_upper

/-- Junk entry used to totalize out-of-range table indexing (never reached
under the invariants that hold of the real table). -/
def dummyEntry : pg_case_map := ⟨0, 0, 0, 0, none⟩

/-- The environment of the engine: the case-map table plus the character
classification predicates supplied by `common/unicode_category.c` (not in
src), kept abstract. -/
structure UnicodeCtx where
  case_map : List pg_case_map
  prop_cased : Nat → Bool
  prop_case_ignorable : Nat → Bool
  isalnum : Nat → Bool → Bool

/-- Read one byte of a byte string; out-of-range reads give 0. -/
def byteAt (s : List Nat) (i : Nat) : Nat := s.getD i 0

/-- Read `n` consecutive bytes starting at `off` (C: the source window that
`memcpy` copies). -/
def readBytes (s : List Nat) (off n : Nat) : List Nat :=
  (List.range n).map (fun j => byteAt s (off + j))

/-- Write the bytes `bs` into the store `dst` at offset `off`. -/
def writeBytes (dst : Nat → Nat) (off : Nat) (bs : List Nat) : Nat → Nat :=
  fun i => if off ≤ i ∧ i < off + bs.length then bs.getD (i - off) 0 else dst i

/-- Modelled from the spec: `unicode_utf8len` of `mb/pg_wchar.h` (not in src);
the number of bytes of the UTF-8 encoding of a codepoint. -/
def unicode_utf8len (c : Nat) : Nat :=
  if c < 0x80 then 1
  else if c < 0x800 then 2
  else if c < 0x10000 then 3
  else 4

/-- Modelled from the spec: `unicode_to_utf8` of `mb/pg_wchar.h` (not in src);
the standard UTF-8 encoding of a codepoint, written with division/modulus
(equivalent to the C shift-and-mask formulation). -/
def unicode_to_utf8 (c : Nat) : List Nat :=
  if c < 0x80 then [c]
  else if c < 0x800 then [0xC0 + c / 64, 0x80 + c % 64]
  else if c < 0x10000 then [0xE0 + c / 4096, 0x80 + (c / 64) % 64, 0x80 + c % 64]
  else [0xF0 + c / 262144, 0x80 + (c / 4096) % 64, 0x80 + (c / 64) % 64, 0x80 + c % 64]

/-- Modelled from the spec: `utf8_to_unicode` of `mb/pg_wchar.h` (not in src);
decode the codepoint starting at the head of the byte list.  The lead-byte
range tests are the arithmetic form of the C mask tests, and the result for an
invalid lead byte is the C function's 0xffffffff. -/
def utf8_to_unicode (bs : List Nat) : Nat :=
  let b0 := byteAt bs 0
  if b0 < 0x80 then b0
  else if 0xC0 ≤ b0 ∧ b0 < 0xE0 then
    (b0 % 32) * 64 + byteAt bs 1 % 64
  else if 0xE0 ≤ b0 ∧ b0 < 0xF0 then
    (b0 % 16) * 4096 + (byteAt bs 1 % 64) * 64 + byteAt bs 2 % 64
  else if 0xF0 ≤ b0 ∧ b0 < 0xF8 then
    (b0 % 8) * 262144 + (byteAt bs 1 % 64) * 4096 + (byteAt bs 2 % 64) * 64 +
      byteAt bs 3 % 64
  else 0xFFFFFFFF

/-- Length in bytes of the source codepoint at `srcoff` as the engine computes
it: `unicode_utf8len(utf8_to_unicode(src + srcoff))`. -/
def cpLen (src : List Nat) (srcoff : Nat) : Nat :=
  unicode_utf8len (utf8_to_unicode (src.drop srcoff))

theorem unicode_utf8len_pos (c : Nat) : 1 ≤ unicode_utf8len c := by
  unfold unicode_utf8len; split <;> [omega; split <;> [omega; split <;> omega]]

theorem cpLen_pos (src : List Nat) (srcoff : Nat) : 1 ≤ cpLen src srcoff :=
  unicode_utf8len_pos _

theorem byteAt_ne_zero_lt {s : List Nat} {i : Nat} (h : byteAt s i ≠ 0) :
    i < s.length := by
  by_contra hc
  exact h (List.getD_eq_default _ _ (by omega))

/-- Backward scan of `check_final_sigma` (`unicode_case.c`): scan indices
`i, i-1, …, 0`; at a lead byte decode and test the classification; skip
continuation bytes.  Returns `false` exactly when the C code returns false
from inside the loop; returns `true` when the C loop breaks on a Cased
character or exhausts all indices. -/
def cfs_back (ctx : UnicodeCtx) (str : List Nat) : Nat → Bool
  | 0 =>
    let b := byteAt str 0
    if b &&& 0x80 = 0 ∨ b &&& 0xC0 = 0xC0 then
      let curr := utf8_to_unicode str
      if ctx.prop_case_ignorable curr then true
      else if ctx.prop_cased curr then true
      else false
    else true
  | i + 1 =>
    let b := byteAt str (i + 1)
    if b &&& 0x80 = 0 ∨ b &&& 0xC0 = 0xC0 then
      let curr := utf8_to_unicode (str.drop (i + 1))
      if ctx.prop_case_ignorable curr then cfs_back ctx str i
      else if ctx.prop_cased curr then true
      else false
    else cfs_back ctx str i

/-- Forward scan of `check_final_sigma` (`unicode_case.c`): scan indices
`i, i+1, …` while `i < len` and the byte is not NUL; at a lead byte decode and
test; skip continuation bytes.  Returns `false` exactly when the C code
returns false (first non-ignorable codepoint is Cased); `true` otherwise. -/
def cfs_fwd_fuel (ctx : UnicodeCtx) (str : List Nat) (len : Nat) :
    Nat → Nat → Bool
  | 0, _ => true
  | fuel + 1, i =>
    if i < len ∧ byteAt str i ≠ 0 then
      let b := byteAt str i
      if b &&& 0x80 = 0 ∨ b &&& 0xC0 = 0xC0 then
        let curr := utf8_to_unicode (str.drop i)
        if ctx.prop_case_ignorable curr then cfs_fwd_fuel ctx str len fuel (i + 1)
        else if ctx.prop_cased curr then false
        else true
      else cfs_fwd_fuel ctx str len fuel (i + 1)
    else true

/-- The forward scan entered with fuel `len - i`: the fuel is an upper bound
on the remaining iterations (each iteration increments `i`, and the loop stops
as soon as `i = len`), so the fuel-exhausted branch coincides with the loop
guard failing. -/
def cfs_fwd (ctx : UnicodeCtx) (str : List Nat) (len : Nat) (i : Nat) : Bool :=
  cfs_fwd_fuel ctx str len (len - i) i

/-- check_final_sigma from `unicode_case.c`. -/
def check_final_sigma (ctx : UnicodeCtx) (str : List Nat) (len offset : Nat) :
    Bool :=
  if offset = 0 then false
  else if cfs_back ctx str (offset - 1) = false then false
  else if offset = len then true
  else cfs_fwd ctx str len (offset + 1)

/-- check_special_conditions from `unicode_case.c`.  A condition tag other
than 0 or `PG_U_FINAL_SIGMA` is asserted unreachable in C and returns false. -/
def check_special_conditions (ctx : UnicodeCtx) (conditions : Nat)
    (str : List Nat) (len offset : Nat) : Bool :=
  if conditions = 0 then true
  else if conditions = PG_U_FINAL_SIGMA then check_final_sigma ctx str len offset
  else false

/-- The binary-search loop of `find_case_map` (`unicode_case.c`).  The C loop
carries signed bounds `min`/`max` and runs while `max >= min`; here `maxp1`
stands for `max + 1`, so the guard is `min < maxp1` and `max = mid - 1`
becomes `maxp1 = mid`. -/
def case_map_bsearch_fuel (t : List pg_case_map) (ucs : Nat) :
    Nat → Nat → Nat → Option pg_case_map
  | 0, _, _ => none
  | fuel + 1, min, maxp1 =>
    if min < maxp1 then
      let mid := (min + maxp1 - 1) / 2
      let e := t.getD mid dummyEntry
      if ucs > e.codepoint then case_map_bsearch_fuel t ucs fuel (mid + 1) maxp1
      else if ucs < e.codepoint then case_map_bsearch_fuel t ucs fuel min mid
      else some e
    else none

/-- The search loop entered with fuel `maxp1 - min`: each iteration shrinks
the bracket `[min, maxp1)` by at least one, so the fuel-exhausted branch
coincides with the empty-bracket exit. -/
def case_map_bsearch (t : List pg_case_map) (ucs : Nat) (min maxp1 : Nat) :
    Option pg_case_map :=
  case_map_bsearch_fuel t ucs (maxp1 - min) min maxp1

/-- find_case_map from `unicode_case.c`: codepoints below 0x80 index directly
into the table (the C code returns `&case_map[ucs]` unconditionally, relying
on the table having at least 0x80 entries; out-of-range indexing is modelled
as `none`); larger codepoints binary-search the sorted table. -/
def find_case_map (t : List pg_case_map) (ucs : Nat) : Option pg_case_map :=
  if ucs < 0x80 then t[ucs]?
  else case_map_bsearch t ucs 0 t.length

/-- Loop-carried state of `convert_case` apart from `srcoff`/`result_len`:
the pending word boundary, the titlecasing adjusting flag, the per-character
case kind, and the caller's word-boundary state. -/
structure LoopSt (σ : Type) where
  boundary : Nat
  adjusting : Bool
  chr : CaseKind
  ws : σ

/-- The titlecasing state machine at the head of each `convert_case`
iteration: on reaching the pending boundary re-enter the adjusting state and
pull the next boundary; while adjusting, either finish adjustment (when
`adjust_to_cased` is off or the character is Cased) and look up the map with
the title-or-upper kind, or pass the character through unmapped; otherwise
map with the lower kind.  For non-title conversions just look up the map. -/
def titleStep (ctx : UnicodeCtx) {σ : Type} (wbnext : σ → Nat × σ)
    (kind : CaseKind) (real_titlecase adjust_to_cased : Bool)
    (u1 srcoff : Nat) (st : LoopSt σ) : LoopSt σ × Option pg_case_map :=
  if kind = CaseTitle then
    let st₁ :=
      if srcoff = st.boundary then
        let p := wbnext st.ws
        { st with adjusting := true, boundary := p.1, ws := p.2 }
      else st
    if st₁.adjusting then
      if !adjust_to_cased || ctx.prop_cased u1 then
        ({ st₁ with adjusting := false,
                    chr := if real_titlecase then CaseTitle else CaseUpper },
         find_case_map ctx.case_map u1)
      else (st₁, none)
    else ({ st₁ with chr := CaseLower }, find_case_map ctx.case_map u1)
  else (st, find_case_map ctx.case_map u1)

/-- Special-case selection of `convert_case`: when full mappings are enabled
and the looked-up entry has a special case whose conditions hold at this
offset, use it. -/
def resolveSpecial (ctx : UnicodeCtx) (full : Bool)
    (casemap : Option pg_case_map) (src : List Nat) (srclen srcoff : Nat) :
    Option pg_special_case :=
  match casemap with
  | some cm =>
    match cm.special_case with
    | some sp =>
      if full then
        if check_special_conditions ctx sp.conditions src srclen srcoff then
          some sp
        else none
      else none
    | none => none
  | none => none

/-- Write a sequence of codepoints (the C special-mapping inner loop, and with
a singleton list the simple-mapping case): for each codepoint, write its UTF-8
encoding at the current result offset when it fits strictly below `dstsize`,
and always advance `result_len` by its encoded length. -/
def writeCps (dstsize : Nat) (cps : List Nat) (rl : Nat) (dst : Nat → Nat) :
    (Nat → Nat) × Nat :=
  match cps with
  | [] => (dst, rl)
  | u2 :: rest =>
    let u2len := unicode_utf8len u2
    let dst' := if rl + u2len < dstsize then writeBytes dst rl (unicode_to_utf8 u2)
                else dst
    writeCps dstsize rest (rl + u2len) dst'

/-- The main loop of `convert_case` (`unicode_case.c`): while the current byte
is not NUL and `srcoff < srclen`, decode the codepoint, run the titlecasing
state machine, resolve a special case, emit the mapped codepoints (or copy
the source bytes when there is no mapping), and advance by the codepoint's
byte length. -/
def convert_loop (ctx : UnicodeCtx) {σ : Type} (wbnext : σ → Nat × σ)
    (kind : CaseKind) (real_titlecase adjust_to_cased full : Bool)
    (src : List Nat) (srclen dstsize : Nat) :
    Nat → Nat → LoopSt σ → Nat → (Nat → Nat) → (Nat → Nat) × Nat
  | 0, _, _, rl, dst => (dst, rl)
  | fuel + 1, srcoff, st, rl, dst =>
    if byteAt src srcoff ≠ 0 ∧ srcoff < srclen then
      let u1 := utf8_to_unicode (src.drop srcoff)
      let u1len := unicode_utf8len u1
      let p := titleStep ctx wbnext kind real_titlecase adjust_to_cased u1 srcoff st
      let st' := p.1
      let casemap := p.2
      let special := resolveSpecial ctx full casemap src srclen srcoff
      let r :=
        match special with
        | some sp => writeCps dstsize (specialList (sp.map st'.chr)) rl dst
        | none =>
          match casemap with
          | some cm => writeCps dstsize [cm.simplemap st'.chr] rl dst
          | none =>
            (if rl + u1len < dstsize then
               writeBytes dst rl (readBytes src srcoff u1len)
             else dst,
             rl + u1len)
      convert_loop ctx wbnext kind real_titlecase adjust_to_cased full src srclen
        dstsize fuel (srcoff + u1len) st' r.2 r.1
    else (dst, rl)

/-- convert_case from `unicode_case.c`: initialize the per-character case kind
to the string case kind and the adjusting flag to true; for titlecase pull the
first boundary; run the loop; NUL-terminate when the result fits.  The loop is
entered with fuel `src.length`: every iteration advances `srcoff` by at least
one, and the loop exits at or before `srcoff = src.length` (the byte read
there is 0), so the fuel-exhausted branch is unreachable. -/
def convert_case (ctx : UnicodeCtx) {σ : Type} (dst : Nat → Nat)
    (dstsize : Nat) (src : List Nat) (srclen : Nat) (kind : CaseKind)
    (real_titlecase adjust_to_cased full : Bool) (wbnext : σ → Nat × σ)
    (ws : σ) : (Nat → Nat) × Nat :=
  let b := if kind = CaseTitle then wbnext ws else (0, ws)
  let r := convert_loop ctx wbnext kind real_titlecase adjust_to_cased full src
    srclen dstsize src.length 0 ⟨b.1, true, kind, b.2⟩ 0 dst
  (if r.2 < dstsize then writeBytes r.1 r.2 [0] else r.1, r.2)

/-- Trivial word-boundary callback standing for the C NULL callback passed by
the lower/upper entry points (never invoked for non-title conversions). -/
def nullWb : Unit → Nat × Unit := fun u => (0, u)

/-- unicode_strlower from `unicode_case.c`. -/
def unicode_strlower (ctx : UnicodeCtx) (dst : Nat → Nat) (dstsize : Nat)
    (src : List Nat) (srclen : Nat) (full : Bool) : (Nat → Nat) × Nat :=
  convert_case ctx dst dstsize src srclen CaseLower false false full nullWb ()

/-- unicode_strtitle from `unicode_case.c`. -/
def unicode_strtitle (ctx : UnicodeCtx) {σ : Type} (dst : Nat → Nat)
    (dstsize : Nat) (src : List Nat) (srclen : Nat)
    (real_titlecase adjust_to_cased full : Bool) (wbnext : σ → Nat × σ)
    (ws : σ) : (Nat → Nat) × Nat :=
  convert_case ctx dst dstsize src srclen CaseTitle real_titlecase
    adjust_to_cased full wbnext ws

/-- unicode_strupper from `unicode_case.c`. -/
def unicode_strupper (ctx : UnicodeCtx) (dst : Nat → Nat) (dstsize : Nat)
    (src : List Nat) (srclen : Nat) (full : Bool) : (Nat → Nat) × Nat :=
  convert_case ctx dst dstsize src srclen CaseUpper false false full nullWb ()

/-- WordBoundaryState from `pg_locale_builtin.c`. -/
structure WordBoundaryState where
  str : List Nat
  len : Nat
  offset : Nat
  posix : Bool
  init : Bool
  prev_alnum : Bool

/-- initcap_wbnext from `pg_locale_builtin.c`: the alphanumeric-transition
word-boundary iterator.  Walk codepoints from the current offset; emit the
offset whenever the iterator is uninitialized or the alphanumeric class
changes; return the string length when the scan is exhausted. -/
def initcap_wbnext_fuel (ctx : UnicodeCtx) :
    Nat → WordBoundaryState → Nat × WordBoundaryState
  | 0, s => (s.len, s)
  | fuel + 1, s =>
    if s.offset < s.len ∧ byteAt s.str s.offset ≠ 0 then
      let u := utf8_to_unicode (s.str.drop s.offset)
      let curr_alnum := ctx.isalnum u s.posix
      if !s.init || curr_alnum ≠ s.prev_alnum then
        (s.offset,
         { s with init := true, offset := s.offset + unicode_utf8len u,
                  prev_alnum := curr_alnum })
      else
        initcap_wbnext_fuel ctx fuel
          { s with offset := s.offset + unicode_utf8len u }
    else (s.len, s)

/-- The scan entered with fuel `s.len - s.offset`: each skipped codepoint
advances the offset by at least one and the loop stops at `offset = len`, so
the fuel-exhausted branch coincides with the scan-exhausted exit. -/
def initcap_wbnext (ctx : UnicodeCtx) (s : WordBoundaryState) :
    Nat × WordBoundaryState :=
  initcap_wbnext_fuel ctx (s.len - s.offset) s

/-- The per-codepoint emission of one `convert_case` iteration, as a list of
byte chunks, one chunk per emitted codepoint: a matching special case emits
the encodings of its (up to `PG_U_MAX_CASE_EXPANSION`) codepoints; a simple
mapping emits one encoded codepoint; with no mapping the source bytes of the
codepoint are copied through. -/
def stepChunks (src : List Nat) (srcoff u1len : Nat) (chr : CaseKind)
    (casemap : Option pg_case_map) (special : Option pg_special_case) :
    List (List Nat) :=
  match special with
  | some sp => (specialList (sp.map chr)).map unicode_to_utf8
  | none =>
    match casemap with
    | some cm => [unicode_to_utf8 (cm.simplemap chr)]
    | none => [readBytes src srcoff u1len]

/-- The sequence of byte chunks (one per emitted codepoint) produced by the
`convert_case` loop from a given state, independent of any destination
buffer. -/
def convert_chunks_aux (ctx : UnicodeCtx) {σ : Type} (wbnext : σ → Nat × σ)
    (kind : CaseKind) (real_titlecase adjust_to_cased full : Bool)
    (src : List Nat) (srclen : Nat) :
    Nat → Nat → LoopSt σ → List (List Nat)
  | 0, _, _ => []
  | fuel + 1, srcoff, st =>
    if byteAt src srcoff ≠ 0 ∧ srcoff < srclen then
      let u1 := utf8_to_unicode (src.drop srcoff)
      let u1len := unicode_utf8len u1
      let p := titleStep ctx wbnext kind real_titlecase adjust_to_cased u1 srcoff st
      let special := resolveSpecial ctx full p.2 src srclen srcoff
      stepChunks src srcoff u1len p.1.chr p.2 special ++
        convert_chunks_aux ctx wbnext kind real_titlecase adjust_to_cased full src
          srclen fuel (srcoff + u1len) p.1
    else []

/-- The full converted output of a `convert_case` call, as per-codepoint byte
chunks. -/
def convert_chunks (ctx : UnicodeCtx) {σ : Type} (src : List Nat)
    (srclen : Nat) (kind : CaseKind) (real_titlecase adjust_to_cased full : Bool)
    (wbnext : σ → Nat × σ) (ws : σ) : List (List Nat) :=
  let b := if kind = CaseTitle then wbnext ws else (0, ws)
  convert_chunks_aux ctx wbnext kind real_titlecase adjust_to_cased full src
    srclen src.length 0 ⟨b.1, true, kind, b.2⟩

/-- Total byte length of a list of chunks. -/
def chunksLen (cks : List (List Nat)) : Nat := (cks.map List.length).sum

/-- Lay a sequence of chunks into a byte store at consecutive offsets,
writing each chunk exactly when it ends strictly below `dstsize` (the
capacity-aware partial-write rule of `convert_case`). -/
def layChunks (dstsize : Nat) : List (List Nat) → Nat → (Nat → Nat) → Nat → Nat
  | [], _, dst => dst
  | c :: cks, off, dst =>
    let dst' := if off + c.length < dstsize then writeBytes dst off c else dst
    layChunks dstsize cks (off + c.length) dst'

/-- The number of leading chunks that fit when laying chunks at `off` with
capacity `dstsize`. -/
def fitCount (dstsize : Nat) : List (List Nat) → Nat → Nat
  | [], _ => 0
  | c :: cks, off =>
    if off + c.length < dstsize then fitCount dstsize cks (off + c.length) + 1
    else 0

theorem unicode_to_utf8_length (c : Nat) :
    (unicode_to_utf8 c).length = unicode_utf8len c := by
  unfold unicode_to_utf8 unicode_utf8len
  split <;> [rfl; split <;> [rfl; split <;> rfl]]

theorem readBytes_length (s : List Nat) (off n : Nat) :
    (readBytes s off n).length = n := by
  simp [readBytes]

theorem chunksLen_cons (c : List Nat) (cks : List (List Nat)) :
    chunksLen (c :: cks) = c.length + chunksLen cks := by
  simp [chunksLen]

theorem chunksLen_append (a b : List (List Nat)) :
    chunksLen (a ++ b) = chunksLen a + chunksLen b := by
  simp [chunksLen]

theorem chunksLen_eq_flatten_length (cks : List (List Nat)) :
    chunksLen cks = cks.flatten.length := by
  induction cks with
  | nil => rfl
  | cons c cks ih => simp [chunksLen_cons, ih]

theorem writeBytes_at {dst : Nat → Nat} {off : Nat} {bs : List Nat} {i : Nat}
    (h1 : off ≤ i) (h2 : i < off + bs.length) :
    writeBytes dst off bs i = bs.getD (i - off) 0 := by
  simp [writeBytes, h1, h2]

theorem writeBytes_out {dst : Nat → Nat} {off : Nat} {bs : List Nat} {i : Nat}
    (h : i < off ∨ off + bs.length ≤ i) :
    writeBytes dst off bs i = dst i := by
  unfold writeBytes
  split
  · omega
  · rfl

/-- Once the laying offset is at or past the capacity, nothing is written. -/
theorem layChunks_dead (dstsize : Nat) (cks : List (List Nat)) (off : Nat)
    (dst : Nat → Nat) (h : dstsize ≤ off) :
    layChunks dstsize cks off dst = dst := by
  induction cks generalizing off dst with
  | nil => rfl
  | cons c cks ih =>
    unfold layChunks
    have : ¬ (off + c.length < dstsize) := by omega
    simp only [this, if_false]
    exact ih (off + c.length) dst (by omega)

theorem layChunks_append (dstsize : Nat) (a b : List (List Nat)) :
    ∀ (off : Nat) (dst : Nat → Nat),
    layChunks dstsize (a ++ b) off dst =
      layChunks dstsize b (off + chunksLen a) (layChunks dstsize a off dst) := by
  induction a with
  | nil => intro off dst; simp [layChunks, chunksLen]
  | cons c a ih =>
    intro off dst
    simp only [List.cons_append, layChunks, chunksLen_cons, List.append_eq]
    rw [ih]
    ring_nf

/-- Pointwise characterization of `layChunks`: exactly the fitting leading
chunks are laid down, contiguously from `off`; everything else is untouched. -/
theorem layChunks_fit (dstsize : Nat) (cks : List (List Nat)) :
    ∀ (off : Nat) (dst : Nat → Nat) (i : Nat),
    layChunks dstsize cks off dst i =
      if off ≤ i ∧
         i < off + chunksLen (cks.take (fitCount dstsize cks off)) then
        (cks.take (fitCount dstsize cks off)).flatten.getD (i - off) 0
      else dst i := by
  induction cks with
  | nil =>
    intro off dst i
    simp only [layChunks, fitCount, List.take_nil]
    have h0 : chunksLen ([] : List (List Nat)) = 0 := rfl
    rw [h0, if_neg (by omega)]
  | cons c cks ih =>
    intro off dst i
    by_cases hfit : off + c.length < dstsize
    · have hstep : layChunks dstsize (c :: cks) off dst =
          layChunks dstsize cks (off + c.length) (writeBytes dst off c) := by
        simp [layChunks, hfit]
      have hf : fitCount dstsize (c :: cks) off =
          fitCount dstsize cks (off + c.length) + 1 := by
        simp [fitCount, hfit]
      rw [hstep, ih (off + c.length) (writeBytes dst off c) i, hf]
      simp only [List.take_succ_cons, chunksLen_cons, List.flatten_cons]
      by_cases h1 : off ≤ i ∧ i < off + c.length
      · -- inside the first chunk
        have hL : ¬ (off + c.length ≤ i ∧
            i < off + c.length +
              chunksLen (cks.take (fitCount dstsize cks (off + c.length)))) := by
          omega
        rw [if_neg hL, if_pos (by omega), writeBytes_at h1.1 h1.2,
          List.getD_append _ _ _ _ (by omega)]
      · by_cases h2 : off + c.length ≤ i ∧
            i < off + c.length +
              chunksLen (cks.take (fitCount dstsize cks (off + c.length)))
        · -- inside the rest
          have hlen :
              (cks.take (fitCount dstsize cks (off + c.length))).flatten.length =
                chunksLen (cks.take (fitCount dstsize cks (off + c.length))) :=
            (chunksLen_eq_flatten_length _).symm
          rw [if_pos h2, if_pos (by omega),
            List.getD_append_right _ _ _ _ (by omega)]
          congr 1
          omega
        · rw [if_neg h2, if_neg (by omega), writeBytes_out (by omega)]
    · have hstep : layChunks dstsize (c :: cks) off dst =
          layChunks dstsize cks (off + c.length) dst := by
        simp [layChunks, hfit]
      have hf : fitCount dstsize (c :: cks) off = 0 := by
        simp [fitCount, hfit]
      rw [hstep, layChunks_dead _ _ _ _ (by omega), hf]
      simp only [List.take_zero]
      have h0 : chunksLen ([] : List (List Nat)) = 0 := rfl
      rw [h0, if_neg (by omega)]

/-- Either no chunk fits, or the laid region ends strictly below the
capacity. -/
theorem fitCount_end (dstsize : Nat) (cks : List (List Nat)) :
    ∀ off : Nat, fitCount dstsize cks off = 0 ∨
      off + chunksLen (cks.take (fitCount dstsize cks off)) < dstsize := by
  induction cks with
  | nil => intro off; left; rfl
  | cons c cks ih =>
    intro off
    by_cases hfit : off + c.length < dstsize
    · right
      have hf : fitCount dstsize (c :: cks) off =
          fitCount dstsize cks (off + c.length) + 1 := by
        simp [fitCount, hfit]
      rw [hf]
      simp only [List.take_succ_cons, chunksLen_cons]
      rcases ih (off + c.length) with h0 | hlt
      · rw [h0]; simp [chunksLen]; omega
      · omega
    · left; simp [fitCount, hfit]

/-- When the whole chunk list ends strictly below the capacity, every chunk
fits. -/
theorem fitCount_all (dstsize : Nat) (cks : List (List Nat)) :
    ∀ off : Nat, off + chunksLen cks < dstsize →
      fitCount dstsize cks off = cks.length := by
  induction cks with
  | nil => intro off _; rfl
  | cons c cks ih =>
    intro off h
    rw [chunksLen_cons] at h
    have hfit : off + c.length < dstsize := by
      have := chunksLen (c :: cks)
      omega
    simp only [fitCount, hfit, if_true, List.length_cons]
    rw [ih (off + c.length) (by omega)]

theorem writeCps_eq (dstsize : Nat) (cps : List Nat) :
    ∀ (rl : Nat) (dst : Nat → Nat),
    writeCps dstsize cps rl dst =
      (layChunks dstsize (cps.map unicode_to_utf8) rl dst,
       rl + chunksLen (cps.map unicode_to_utf8)) := by
  induction cps with
  | nil => intro rl dst; simp [writeCps, layChunks, chunksLen]
  | cons u2 rest ih =>
    intro rl dst
    simp only [writeCps, List.map_cons, layChunks, chunksLen_cons,
      unicode_to_utf8_length]
    rw [ih]
    ring_nf

/-- The destination-writing loop of `convert_case` computes exactly the
chunk sequence laid into the buffer under the capacity-aware write rule, and
a result length equal to the total byte length of the chunks (independent of
the buffer and capacity). -/
theorem convert_loop_eq (ctx : UnicodeCtx) {σ : Type} (wbnext : σ → Nat × σ)
    (kind : CaseKind) (rt atc full : Bool) (src : List Nat)
    (srclen dstsize : Nat) :
    ∀ (fuel srcoff : Nat) (st : LoopSt σ) (rl : Nat) (dst : Nat → Nat),
      convert_loop ctx wbnext kind rt atc full src srclen dstsize fuel srcoff
          st rl dst =
        (layChunks dstsize
          (convert_chunks_aux ctx wbnext kind rt atc full src srclen fuel
            srcoff st) rl dst,
         rl + chunksLen
          (convert_chunks_aux ctx wbnext kind rt atc full src srclen fuel
            srcoff st)) := by
  intro fuel
  induction fuel with
  | zero =>
    intro srcoff st rl dst
    rw [convert_loop, convert_chunks_aux]
    simp [layChunks, chunksLen]
  | succ fuel ih =>
    intro srcoff st rl dst
    rw [convert_loop, convert_chunks_aux]
    by_cases hg : byteAt src srcoff ≠ 0 ∧ srcoff < srclen
    · rw [if_pos hg]
      rw [if_pos hg]
      dsimp only
      cases hsp : resolveSpecial ctx full
          (titleStep ctx wbnext kind rt atc
            (utf8_to_unicode (src.drop srcoff)) srcoff st).2 src srclen
          srcoff with
      | some sp =>
        simp only [hsp, stepChunks]
        rw [writeCps_eq]
        dsimp only
        rw [ih (srcoff + unicode_utf8len (utf8_to_unicode (src.drop srcoff)))]
        rw [layChunks_append, chunksLen_append]
        rw [Prod.mk.injEq]
        exact ⟨rfl, by omega⟩
      | none =>
        simp only [hsp]
        cases hcm : (titleStep ctx wbnext kind rt atc
            (utf8_to_unicode (src.drop srcoff)) srcoff st).2 with
        | some cm =>
          simp only [hcm, stepChunks]
          rw [writeCps_eq]
          simp only [List.map_cons, List.map_nil]
          rw [ih (srcoff + unicode_utf8len (utf8_to_unicode (src.drop srcoff)))]
          rw [layChunks_append, chunksLen_append]
          rw [Prod.mk.injEq]
          exact ⟨rfl, by omega⟩
        | none =>
          simp only [hcm, stepChunks]
          rw [ih (srcoff + unicode_utf8len (utf8_to_unicode (src.drop srcoff)))]
          rw [layChunks_append, chunksLen_append]
          simp only [layChunks, chunksLen_cons, readBytes_length]
          have h0 : chunksLen ([] : List (List Nat)) = 0 := rfl
          rw [h0]
          rw [Prod.mk.injEq]
          exact ⟨rfl, by omega⟩
    · rw [if_neg hg]
      rw [if_neg hg]
      simp [layChunks, chunksLen]

/-- Full characterization of `convert_case`: the returned length is the total
byte length of the converted chunks (independent of buffer and capacity), and
the final store is the chunks laid under the capacity rule, NUL-terminated
exactly when the result fits. -/
theorem convert_case_eq (ctx : UnicodeCtx) {σ : Type} (dst : Nat → Nat)
    (dstsize : Nat) (src : List Nat) (srclen : Nat) (kind : CaseKind)
    (rt atc full : Bool) (wbnext : σ → Nat × σ) (ws : σ) :
    convert_case ctx dst dstsize src srclen kind rt atc full wbnext ws =
      ((if chunksLen (convert_chunks ctx src srclen kind rt atc full wbnext ws)
            < dstsize then
          writeBytes
            (layChunks dstsize
              (convert_chunks ctx src srclen kind rt atc full wbnext ws) 0 dst)
            (chunksLen (convert_chunks ctx src srclen kind rt atc full wbnext ws))
            [0]
        else
          layChunks dstsize
            (convert_chunks ctx src srclen kind rt atc full wbnext ws) 0 dst),
       chunksLen (convert_chunks ctx src srclen kind rt atc full wbnext ws)) := by
  unfold convert_case convert_chunks
  dsimp only
  rw [convert_loop_eq ctx wbnext kind rt atc full src srclen dstsize src.length
    0 _ 0 dst]
  simp only [Nat.zero_add]

/-- Laid chunks never touch indices at or above the capacity. -/
theorem layChunks_ge (dstsize : Nat) (cks : List (List Nat)) (off : Nat)
    (dst : Nat → Nat) (i : Nat) (h : dstsize ≤ i) :
    layChunks dstsize cks off dst i = dst i := by
  rw [layChunks_fit]
  rcases fitCount_end dstsize cks off with h0 | hlt
  · rw [h0]
    simp only [List.take_zero]
    have h0' : chunksLen ([] : List (List Nat)) = 0 := rfl
    rw [h0', if_neg (by omega)]
  · rw [if_neg (by omega)]

/-- Laid chunks never touch indices below the starting offset. -/
theorem layChunks_lt_off (dstsize : Nat) (cks : List (List Nat)) (off : Nat)
    (dst : Nat → Nat) (i : Nat) (h : i < off) :
    layChunks dstsize cks off dst i = dst i := by
  rw [layChunks_fit, if_neg (by omega)]

theorem chunksLen_take_le (cks : List (List Nat)) :
    ∀ n : Nat, chunksLen (cks.take n) ≤ chunksLen cks := by
  induction cks with
  | nil => intro n; simp
  | cons c cks ih =>
    intro n
    cases n with
    | zero =>
      simp only [List.take_zero]
      have h0 : chunksLen ([] : List (List Nat)) = 0 := rfl
      rw [h0]; omega
    | succ n =>
      simp only [List.take_succ_cons, chunksLen_cons]
      have := ih n
      omega

/-- When the whole chunk list fits, the laid region holds exactly the
flattened chunks. -/
theorem layChunks_all_read (dstsize : Nat) (cks : List (List Nat)) (off : Nat)
    (dst : Nat → Nat) (i : Nat) (hfits : off + chunksLen cks < dstsize)
    (h1 : off ≤ i) (h2 : i < off + chunksLen cks) :
    layChunks dstsize cks off dst i = cks.flatten.getD (i - off) 0 := by
  rw [layChunks_fit, fitCount_all dstsize cks off hfits, List.take_length,
    if_pos ⟨h1, h2⟩]

/-- C2: for every input string and every choice of case kind and mode flags,
`convert_case` returns the exact byte length of the fully converted string
(the flattened converted chunks), independently of `dst` and `dstsize`; in
particular a call with `dstsize = 0` returns the same length as a call with a
buffer of exactly that length plus one, and the latter buffer then holds the
complete NUL-terminated result. -/
theorem claim_C2 (ctx : UnicodeCtx) {σ : Type} (wbnext : σ → Nat × σ)
    (kind : CaseKind) (rt atc full : Bool) (src : List Nat) (srclen : Nat)
    (dst₀ dst₁ : Nat → Nat) (dstsize₁ : Nat) (ws : σ) :
    (convert_case ctx dst₀ 0 src srclen kind rt atc full wbnext ws).2 =
        (convert_chunks ctx src srclen kind rt atc full wbnext ws).flatten.length
    ∧ (convert_case ctx dst₁ dstsize₁ src srclen kind rt atc full wbnext ws).2 =
        (convert_case ctx dst₀ 0 src srclen kind rt atc full wbnext ws).2
    ∧ (convert_case ctx dst₁
        ((convert_case ctx dst₀ 0 src srclen kind rt atc full wbnext ws).2 + 1)
        src srclen kind rt atc full wbnext ws).2 =
        (convert_case ctx dst₀ 0 src srclen kind rt atc full wbnext ws).2
    ∧ ∀ i : Nat,
        (convert_case ctx dst₁
          ((convert_case ctx dst₀ 0 src srclen kind rt atc full wbnext ws).2 + 1)
          src srclen kind rt atc full wbnext ws).1 i =
          if i < (convert_chunks ctx src srclen kind rt atc full wbnext
              ws).flatten.length then
            (convert_chunks ctx src srclen kind rt atc full wbnext
              ws).flatten.getD i 0
          else if i = (convert_chunks ctx src srclen kind rt atc full wbnext
              ws).flatten.length then 0
          else dst₁ i := by
  have hL : (convert_case ctx dst₀ 0 src srclen kind rt atc full wbnext ws).2 =
      chunksLen (convert_chunks ctx src srclen kind rt atc full wbnext ws) := by
    rw [convert_case_eq]
  have hflat := chunksLen_eq_flatten_length
    (convert_chunks ctx src srclen kind rt atc full wbnext ws)
  refine ⟨by rw [hL, hflat], ?_, ?_, ?_⟩
  · rw [hL, convert_case_eq]
  · rw [hL, convert_case_eq]
  · intro i
    rw [hL, convert_case_eq]
    dsimp only
    rw [if_pos (by omega)]
    by_cases h1 : i <
        (convert_chunks ctx src srclen kind rt atc full wbnext ws).flatten.length
    · rw [if_pos h1, writeBytes_out (Or.inl (by omega)),
        layChunks_all_read _ _ _ _ _ (by omega) (by omega) (by omega)]
      simp
    · rw [if_neg h1]
      by_cases h2 : i =
          (convert_chunks ctx src srclen kind rt atc full wbnext
            ws).flatten.length
      · rw [if_pos h2, writeBytes_at (by omega) (by simp [List.length]; omega)]
        have hz : i - chunksLen
            (convert_chunks ctx src srclen kind rt atc full wbnext ws) = 0 := by
          omega
        rw [hz]
        rfl
      · rw [if_neg h2,
          writeBytes_out (Or.inr (by simp [List.length]; omega)),
          layChunks_ge _ _ _ _ _ (by omega)]

/-- C3: a conversion call never writes a byte at index `dstsize` or beyond
(indices `dstsize + k` retain the old buffer contents), and the terminating
NUL is written at `dst[result_len]` exactly when `result_len < dstsize`. -/
theorem claim_C3 (ctx : UnicodeCtx) {σ : Type} (wbnext : σ → Nat × σ)
    (kind : CaseKind) (rt atc full : Bool) (src : List Nat) (srclen : Nat)
    (dst : Nat → Nat) (dstsize : Nat) (ws : σ) :
    (∀ k : Nat,
      (convert_case ctx dst dstsize src srclen kind rt atc full wbnext ws).1
          (dstsize + k) = dst (dstsize + k))
    ∧ (convert_case ctx dst dstsize src srclen kind rt atc full wbnext ws).1
        (convert_case ctx dst dstsize src srclen kind rt atc full wbnext ws).2 =
      if (convert_case ctx dst dstsize src srclen kind rt atc full wbnext
          ws).2 < dstsize then 0
      else dst
        (convert_case ctx dst dstsize src srclen kind rt atc full wbnext
          ws).2 := by
  rw [convert_case_eq]
  dsimp only
  by_cases hc : chunksLen (convert_chunks ctx src srclen kind rt atc full
      wbnext ws) < dstsize
  · rw [if_pos hc, if_pos hc]
    constructor
    · intro k
      rw [writeBytes_out (Or.inr (by simp [List.length]; omega)),
        layChunks_ge _ _ _ _ _ (by omega)]
    · rw [writeBytes_at (by omega) (by simp [List.length])]
      simp
  · rw [if_neg hc, if_neg hc]
    constructor
    · intro k
      exact layChunks_ge _ _ _ _ _ (by omega)
    · exact layChunks_ge _ _ _ _ _ (by omega)

/-- Modelled from the spec: ASCII rows of the generated case-map table
(`unicode_case_table.h`, not in src) — every codepoint 0..127 has an entry
(trivial except for the letters), supporting the dense-array fast path. -/
def asciiEntry (i : Nat) : pg_case_map :=
  ⟨i, if 65 ≤ i ∧ i ≤ 90 then i + 32 else i,
      if 97 ≤ i ∧ i ≤ 122 then i - 32 else i,
      if 97 ≤ i ∧ i ≤ 122 then i - 32 else i, none⟩

/-- Modelled from the spec: the Greek capital sigma's special case from the
generated table (not in src): conditions `FINAL_SIGMA`; lowercase maps to
final sigma (U+03C2), title/upper map to itself. -/
def sigmaSpecial : pg_special_case :=
  ⟨0x3A3, PG_U_FINAL_SIGMA, (0x3C2, 0, 0), (0x3A3, 0, 0), (0x3A3, 0, 0)⟩

/-- Modelled from the spec: a concrete fragment of the sorted case-map table
(not in src): the dense ASCII range 0..127 followed by the Greek sigmas
Σ (U+03A3, with the Final_Sigma special case), ς (U+03C2) and σ (U+03C3). -/
def case_map_demo : List pg_case_map :=
  (List.range 128).map asciiEntry ++
  [⟨0x3A3, 0x3C3, 0x3A3, 0x3A3, some sigmaSpecial⟩,
   ⟨0x3C2, 0x3C2, 0x3A3, 0x3A3, none⟩,
   ⟨0x3C3, 0x3C3, 0x3A3, 0x3A3, none⟩]

/-- Modelled from the spec: the Cased predicate of `unicode_category.c` (not
in src), restricted to the codepoints of the demo table. -/
def demoCased (c : Nat) : Bool :=
  (65 ≤ c && c ≤ 90) || (97 ≤ c && c ≤ 122) || c == 0x3A3 || c == 0x3C2 ||
    c == 0x3C3

/-- Modelled from the spec: the Case_Ignorable predicate of
`unicode_category.c` (not in src), restricted to the apostrophe (U+0027 is
Case_Ignorable in Unicode). -/
def demoIgnorable (c : Nat) : Bool := c == 0x27

/-- Modelled from the spec: the alphanumeric classification of
`unicode_category.c` (not in src) on the demo repertoire; the posix flag does
not matter on this repertoire. -/
def demoAlnum (c : Nat) (_posix : Bool) : Bool :=
  (48 ≤ c && c ≤ 57) || (65 ≤ c && c ≤ 90) || (97 ≤ c && c ≤ 122) ||
    c == 0x3A3 || c == 0x3C2 || c == 0x3C3

/-- A concrete engine environment built from the modelled table and
predicates. -/
def demoCtx : UnicodeCtx := ⟨case_map_demo, demoCased, demoIgnorable, demoAlnum⟩

theorem specialList_length_le (m : Nat × Nat × Nat) :
    (specialList m).length ≤ 3 := by
  unfold specialList
  split_ifs <;> simp

/-- C8: each source codepoint emits at most `PG_U_MAX_CASE_EXPANSION` = 3
output codepoints (one byte chunk per emitted codepoint), under every case
kind and mapping mode; a simple mapping emits exactly one. -/
theorem claim_C8 (src : List Nat) (srcoff u1len : Nat) (chr : CaseKind)
    (casemap : Option pg_case_map) (special : Option pg_special_case) :
    (stepChunks src srcoff u1len chr casemap special).length ≤
        PG_U_MAX_CASE_EXPANSION
    ∧ ∀ cm : pg_case_map,
        (stepChunks src srcoff u1len chr (some cm) none).length = 1 := by
  constructor
  · cases special with
    | some sp =>
      simpa [stepChunks, PG_U_MAX_CASE_EXPANSION] using
        specialList_length_le (sp.map chr)
    | none => cases casemap <;> simp [stepChunks, PG_U_MAX_CASE_EXPANSION]
  · intro cm
    rfl

/-- Drop the special case from a table entry, keeping codepoint and simple
mappings. -/
def stripEntry (m : pg_case_map) : pg_case_map := { m with special_case := none }

/-- Drop every special case from a table. -/
def stripSpecial (t : List pg_case_map) : List pg_case_map := t.map stripEntry

theorem stripEntry_simplemap (m : pg_case_map) (k : CaseKind) :
    (stripEntry m).simplemap k = m.simplemap k := by
  cases k <;> rfl

theorem stripSpecial_getD (t : List pg_case_map) (i : Nat) :
    (stripSpecial t).getD i dummyEntry = stripEntry (t.getD i dummyEntry) := by
  unfold stripSpecial
  rw [List.getD_eq_getElem?_getD, List.getD_eq_getElem?_getD,
    List.getElem?_map]
  cases t[i]? with
  | none => rfl
  | some e => rfl

theorem case_map_bsearch_fuel_strip (t : List pg_case_map) (ucs : Nat) :
    ∀ (fuel min maxp1 : Nat),
      case_map_bsearch_fuel (stripSpecial t) ucs fuel min maxp1 =
        (case_map_bsearch_fuel t ucs fuel min maxp1).map stripEntry := by
  intro fuel
  induction fuel with
  | zero => intro min maxp1; rfl
  | succ fuel ih =>
    intro min maxp1
    rw [case_map_bsearch_fuel, case_map_bsearch_fuel]
    by_cases hlt : min < maxp1
    · rw [if_pos hlt, if_pos hlt]
      dsimp only
      rw [stripSpecial_getD]
      have hcp : (stripEntry (t.getD ((min + maxp1 - 1) / 2) dummyEntry)).codepoint =
          (t.getD ((min + maxp1 - 1) / 2) dummyEntry).codepoint := rfl
      rw [hcp]
      by_cases h1 : ucs > (t.getD ((min + maxp1 - 1) / 2) dummyEntry).codepoint
      · rw [if_pos h1, if_pos h1, ih]
      · rw [if_neg h1, if_neg h1]
        by_cases h2 : ucs < (t.getD ((min + maxp1 - 1) / 2) dummyEntry).codepoint
        · rw [if_pos h2, if_pos h2, ih]
        · rw [if_neg h2, if_neg h2]
          rfl
    · rw [if_neg hlt, if_neg hlt]
      rfl

theorem find_case_map_strip (t : List pg_case_map) (ucs : Nat) :
    find_case_map (stripSpecial t) ucs =
      (find_case_map t ucs).map stripEntry := by
  unfold find_case_map
  by_cases h : ucs < 0x80
  · rw [if_pos h, if_pos h]
    unfold stripSpecial
    rw [List.getElem?_map]
  · rw [if_neg h, if_neg h]
    unfold case_map_bsearch
    have hlen : (stripSpecial t).length = t.length := by
      unfold stripSpecial; rw [List.length_map]
    rw [hlen, case_map_bsearch_fuel_strip]

theorem titleStep_strip (ctx : UnicodeCtx) {σ : Type} (wbnext : σ → Nat × σ)
    (kind : CaseKind) (rt atc : Bool) (u1 srcoff : Nat) (st : LoopSt σ) :
    titleStep { ctx with case_map := stripSpecial ctx.case_map } wbnext kind rt
        atc u1 srcoff st =
      ((titleStep ctx wbnext kind rt atc u1 srcoff st).1,
       (titleStep ctx wbnext kind rt atc u1 srcoff st).2.map stripEntry) := by
  unfold titleStep
  by_cases hk : kind = CaseTitle
  · rw [if_pos hk, if_pos hk]
    dsimp only
    split_ifs <;> simp [find_case_map_strip]
  · rw [if_neg hk, if_neg hk]
    rw [find_case_map_strip]

theorem resolveSpecial_false (ctx : UnicodeCtx) (cm : Option pg_case_map)
    (src : List Nat) (srclen srcoff : Nat) :
    resolveSpecial ctx false cm src srclen srcoff = none := by
  unfold resolveSpecial
  cases cm with
  | none => rfl
  | some c =>
    cases hc : c.special_case with
    | none => simp [hc]
    | some sp => simp [hc]

theorem resolveSpecial_strip (ctx : UnicodeCtx) (full : Bool)
    (cm : Option pg_case_map) (src : List Nat) (srclen srcoff : Nat) :
    resolveSpecial ctx full (cm.map stripEntry) src srclen srcoff = none := by
  cases cm with
  | none => rfl
  | some c => rfl

/-- With full mappings disabled the engine produces exactly the chunks it
would produce over the table with every special case removed (under any
mapping mode): special entries are never consulted. -/
theorem convert_chunks_aux_strip (ctx : UnicodeCtx) {σ : Type}
    (wbnext : σ → Nat × σ) (kind : CaseKind) (rt atc full' : Bool)
    (src : List Nat) (srclen : Nat) :
    ∀ (fuel srcoff : Nat) (st : LoopSt σ),
      convert_chunks_aux { ctx with case_map := stripSpecial ctx.case_map }
          wbnext kind rt atc full' src srclen fuel srcoff st =
        convert_chunks_aux ctx wbnext kind rt atc false src srclen fuel srcoff
          st := by
  intro fuel
  induction fuel with
  | zero => intro srcoff st; rfl
  | succ fuel ih =>
    intro srcoff st
    rw [convert_chunks_aux, convert_chunks_aux]
    by_cases hg : byteAt src srcoff ≠ 0 ∧ srcoff < srclen
    · rw [if_pos hg, if_pos hg]
      dsimp only
      rw [titleStep_strip]
      dsimp only
      rw [resolveSpecial_strip, resolveSpecial_false, ih]
      cases hcm : (titleStep ctx wbnext kind rt atc
          (utf8_to_unicode (src.drop srcoff)) srcoff st).2 with
      | none => rfl
      | some cm =>
        simp [stepChunks, stripEntry_simplemap]
    · rw [if_neg hg, if_neg hg]

/-- C5: with `useFullMappings = false` the conversion never consults or
applies a special-case entry: the whole call (buffer writes and result
length) agrees with the conversion over the table with all special entries
removed, in any mapping mode, so each mapped codepoint produces exactly its
simple mapping. -/
theorem claim_C5 (ctx : UnicodeCtx) {σ : Type} (wbnext : σ → Nat × σ)
    (kind : CaseKind) (rt atc full' : Bool) (src : List Nat) (srclen : Nat)
    (dst : Nat → Nat) (dstsize : Nat) (ws : σ) :
    convert_case ctx dst dstsize src srclen kind rt atc false wbnext ws =
      convert_case { ctx with case_map := stripSpecial ctx.case_map } dst
        dstsize src srclen kind rt atc full' wbnext ws := by
  rw [convert_case_eq, convert_case_eq]
  have h : convert_chunks { ctx with case_map := stripSpecial ctx.case_map }
      src srclen kind rt atc full' wbnext ws =
        convert_chunks ctx src srclen kind rt atc false wbnext ws := by
    unfold convert_chunks
    dsimp only
    exact convert_chunks_aux_strip ctx wbnext kind rt atc full' src srclen
      src.length 0 _
  rw [h]

/-- The first non-case-ignorable codepoint of a list, if any. -/
def firstNonIgnorable (ign : Nat → Bool) : List Nat → Option Nat
  | [] => none
  | c :: cs => if ign c then firstNonIgnorable ign cs else some c

/-- The Final_Sigma condition as the claim states it, over codepoint
sequences: (a) among the codepoints before the offset, scanning backward and
skipping case-ignorable ones, the nearest non-ignorable one exists and is
Cased; and (b) among the codepoints after it, skipping case-ignorable ones,
either none is left or the first non-ignorable one is not Cased. -/
def specFinalSigma (ctx : UnicodeCtx) (before after : List Nat) : Bool :=
  (match firstNonIgnorable ctx.prop_case_ignorable before.reverse with
   | some c => ctx.prop_cased c
   | none => false) &&
  (match firstNonIgnorable ctx.prop_case_ignorable after with
   | some c => !ctx.prop_cased c
   | none => true)

/-- C1 (code bug): on the string "'Σ" (bytes 0x27 0xCE 0xA3, apostrophe
classified Case_Ignorable and not Cased) at the offset of Σ, every codepoint
before the offset is case-ignorable, so the claim — and the C function's own
documentation ("must be directly preceded by a Cased character") — require
the condition to be false; the backward loop of `check_final_sigma` exhausts
all indices without finding a Cased character and falls through to the
forward check, so the code returns true. -/
theorem claim_C1_code_bug :
    check_final_sigma demoCtx [0x27, 0xCE, 0xA3] 3 1 = true
    ∧ specFinalSigma demoCtx [0x27] [] = false
    ∧ demoCtx.prop_case_ignorable 0x27 = true
    ∧ demoCtx.prop_cased 0x27 = false := by
  decide

/-- C4: titlecasing the ASCII string "hello world" with the
alphanumeric-transition boundary iterator `initcap_wbnext`,
`real_titlecase = false` and `adjust_to_cased = true` (in either mapping
mode) returns length 11 and writes exactly "Hello World" with a terminating
NUL. -/
theorem claim_C4 (full : Bool) :
    (unicode_strtitle demoCtx (fun _ => 0) 12
        [104, 101, 108, 108, 111, 32, 119, 111, 114, 108, 100] 11 false true
        full (initcap_wbnext demoCtx)
        ⟨[104, 101, 108, 108, 111, 32, 119, 111, 114, 108, 100], 11, 0, true,
          false, false⟩).2 = 11
    ∧ (List.range 12).map
        (unicode_strtitle demoCtx (fun _ => 0) 12
          [104, 101, 108, 108, 111, 32, 119, 111, 114, 108, 100] 11 false true
          full (initcap_wbnext demoCtx)
          ⟨[104, 101, 108, 108, 111, 32, 119, 111, 114, 108, 100], 11, 0, true,
            false, false⟩).1 =
        [72, 101, 108, 108, 111, 32, 87, 111, 114, 108, 100, 0] := by
  revert full
  set_option maxRecDepth 100000 in
  decide

/-- Strict ascending order of table codepoints (the sortedness invariant of
the case-map table). -/
def sortedByCp : List pg_case_map → Bool
  | [] => true
  | [_] => true
  | a :: b :: rest => a.codepoint < b.codepoint && sortedByCp (b :: rest)

theorem sortedByCp_adj (t : List pg_case_map) :
    sortedByCp t = true → ∀ k : Nat, k + 1 < t.length →
      (t.getD k dummyEntry).codepoint <
        (t.getD (k + 1) dummyEntry).codepoint := by
  induction t with
  | nil => intro _ k hk; simp at hk
  | cons a rest ih =>
    intro hs k hk
    cases rest with
    | nil => simp at hk
    | cons b rest2 =>
      rw [sortedByCp] at hs
      rw [Bool.and_eq_true] at hs
      cases k with
      | zero =>
        have : decide (a.codepoint < b.codepoint) = true := hs.1
        simpa using this
      | succ k =>
        have hrec := ih hs.2 k (by simpa using hk)
        simpa using hrec

theorem sortedByCp_mono (t : List pg_case_map) (hs : sortedByCp t = true) :
    ∀ j i : Nat, i < j → j < t.length →
      (t.getD i dummyEntry).codepoint < (t.getD j dummyEntry).codepoint := by
  intro j
  induction j with
  | zero => intro i hij _; omega
  | succ j ihj =>
    intro i hij hlen
    by_cases hej : i = j
    · rw [hej]
      exact sortedByCp_adj t hs j hlen
    · exact Nat.lt_trans (ihj i (by omega) (by omega))
        (sortedByCp_adj t hs j hlen)

/-- Binary-search correctness: over a table whose codepoints are strictly
increasing (index-monotone), if some index in the bracket holds the sought
codepoint and the fuel covers the bracket, the search returns that entry. -/
theorem case_map_bsearch_fuel_found (t : List pg_case_map) (ucs : Nat)
    (hmono : ∀ i j : Nat, i < j → j < t.length →
      (t.getD i dummyEntry).codepoint < (t.getD j dummyEntry).codepoint) :
    ∀ (fuel min maxp1 i : Nat), min ≤ i → i < maxp1 → maxp1 ≤ t.length →
      maxp1 - min ≤ fuel → (t.getD i dummyEntry).codepoint = ucs →
      case_map_bsearch_fuel t ucs fuel min maxp1 =
        some (t.getD i dummyEntry) := by
  intro fuel
  induction fuel with
  | zero => intro min maxp1 i h1 h2 h3 h4 h5; omega
  | succ fuel ih =>
    intro min maxp1 i h1 h2 h3 h4 h5
    rw [case_map_bsearch_fuel]
    rw [if_pos (by omega)]
    dsimp only
    by_cases hgt : ucs > (t.getD ((min + maxp1 - 1) / 2) dummyEntry).codepoint
    · rw [if_pos hgt]
      have hmid1 : min ≤ (min + maxp1 - 1) / 2 := by omega
      have hmid2 : (min + maxp1 - 1) / 2 < maxp1 := by omega
      have hi : (min + maxp1 - 1) / 2 < i := by
        by_contra hle
        rcases Nat.lt_or_ge i ((min + maxp1 - 1) / 2) with hlt | hge
        · have := hmono i ((min + maxp1 - 1) / 2) hlt (by omega)
          omega
        · have : i = (min + maxp1 - 1) / 2 := by omega
          rw [this] at h5
          omega
      exact ih ((min + maxp1 - 1) / 2 + 1) maxp1 i (by omega) h2 h3 (by omega) h5
    · rw [if_neg hgt]
      by_cases hlt : ucs < (t.getD ((min + maxp1 - 1) / 2) dummyEntry).codepoint
      · rw [if_pos hlt]
        have hi : i < (min + maxp1 - 1) / 2 := by
          by_contra hle
          rcases Nat.lt_or_ge ((min + maxp1 - 1) / 2) i with hgt2 | hge
          · have := hmono ((min + maxp1 - 1) / 2) i hgt2 (by omega)
            omega
          · have : i = (min + maxp1 - 1) / 2 := by omega
            rw [this] at h5
            omega
        exact ih min ((min + maxp1 - 1) / 2) i h1 hi (by omega) (by omega) h5
      · rw [if_neg hlt]
        have heq : i = (min + maxp1 - 1) / 2 := by
          by_contra hne
          rcases Nat.lt_or_ge i ((min + maxp1 - 1) / 2) with hl | hg
          · have := hmono i ((min + maxp1 - 1) / 2) hl (by omega)
            omega
          · have hl2 : (min + maxp1 - 1) / 2 < i := by omega
            have := hmono ((min + maxp1 - 1) / 2) i hl2 (by omega)
            omega
        rw [heq]

/-- C6: over a sorted table whose first 128 rows are the codepoints 0..127
in order, the direct-index fast path of `find_case_map` has an entry present
at every ASCII codepoint, that entry's key is the codepoint itself, and the
fast-path result equals a binary search of the whole table for that
codepoint. -/
theorem claim_C6 (t : List pg_case_map)
    (hsort : sortedByCp t = true)
    (hlen : 128 ≤ t.length)
    (hascii : ∀ i : Nat, i < 128 → (t.getD i dummyEntry).codepoint = i) :
    ∀ ucs : Nat, ucs < 128 →
      t[ucs]? = some (t.getD ucs dummyEntry)
      ∧ (t.getD ucs dummyEntry).codepoint = ucs
      ∧ find_case_map t ucs = case_map_bsearch t ucs 0 t.length := by
  have hmono : ∀ i j : Nat, i < j → j < t.length →
      (t.getD i dummyEntry).codepoint < (t.getD j dummyEntry).codepoint :=
    fun i j hij hj => sortedByCp_mono t hsort j i hij hj
  intro ucs hucs
  have hget : t[ucs]? = some (t.getD ucs dummyEntry) := by
    rw [List.getElem?_eq_getElem (by omega),
      List.getD_eq_getElem t dummyEntry (by omega)]
  refine ⟨hget, hascii ucs hucs, ?_⟩
  unfold find_case_map case_map_bsearch
  rw [if_pos hucs]
  rw [case_map_bsearch_fuel_found t ucs hmono (t.length - 0) 0 t.length ucs
    (by omega) (by omega) (by omega) (by omega) (hascii ucs hucs)]
  exact hget

set_option maxRecDepth 100000 in
/-- C6 witness: the modelled table satisfies the invariants, and for the
concrete codepoint 97 the fast path agrees with the binary search. -/
theorem claim_C6_witness :
    sortedByCp case_map_demo = true
    ∧ 128 ≤ case_map_demo.length
    ∧ (∀ i : Nat, i < 128 →
        (case_map_demo.getD i dummyEntry).codepoint = i)
    ∧ (case_map_demo[97]? = some (case_map_demo.getD 97 dummyEntry)
       ∧ (case_map_demo.getD 97 dummyEntry).codepoint = 97
       ∧ find_case_map case_map_demo 97 =
          case_map_bsearch case_map_demo 97 0 case_map_demo.length) :=
  ⟨by decide, by decide, by decide,
   claim_C6 case_map_demo (by decide) (by decide) (by decide) 97 (by decide)⟩

/-- A Unicode scalar usable as engine input: nonzero (the engine stops at
NUL) and inside the 4-byte UTF-8 range. -/
def ValidCp (c : Nat) : Prop := 0 < c ∧ c < 0x110000

instance (c : Nat) : Decidable (ValidCp c) := by
  unfold ValidCp
  infer_instance

/-- UTF-8 encoding of a codepoint sequence. -/
def utf8Enc (cs : List Nat) : List Nat := (cs.map unicode_to_utf8).flatten

theorem utf8Enc_nil : utf8Enc [] = [] := rfl

theorem utf8Enc_cons (c : Nat) (cs : List Nat) :
    utf8Enc (c :: cs) = unicode_to_utf8 c ++ utf8Enc cs := by
  simp [utf8Enc]

theorem byteAt_append_right (a b : List Nat) (j : Nat) :
    byteAt (a ++ b) (a.length + j) = byteAt b j := by
  unfold byteAt
  rw [List.getD_eq_getElem?_getD, List.getD_eq_getElem?_getD,
    List.getElem?_append_right (by omega)]
  have h : a.length + j - a.length = j := by omega
  rw [h]

theorem byteAt_cons_zero (b : Nat) (r : List Nat) : byteAt (b :: r) 0 = b := rfl

theorem byteAt_cons_succ (b : Nat) (r : List Nat) (j : Nat) :
    byteAt (b :: r) (j + 1) = byteAt r j := rfl

theorem enc_length_pos (c : Nat) : 1 ≤ (unicode_to_utf8 c).length := by
  rw [unicode_to_utf8_length]
  exact unicode_utf8len_pos c

theorem enc_head_ne_zero (c : Nat) (h : ValidCp c) (r : List Nat) :
    byteAt (unicode_to_utf8 c ++ r) 0 ≠ 0 := by
  obtain ⟨h1, h2⟩ := h
  unfold unicode_to_utf8
  split_ifs <;> simp [byteAt, List.getD] <;> omega

theorem decode_enc (c : Nat) (h : ValidCp c) (r : List Nat) :
    utf8_to_unicode (unicode_to_utf8 c ++ r) = c := by
  obtain ⟨h1, h2⟩ := h
  unfold unicode_to_utf8
  by_cases c1 : c < 0x80
  · rw [if_pos c1]
    unfold utf8_to_unicode
    simp only [List.cons_append, List.nil_append, byteAt_cons_zero]
    rw [if_pos c1]
  · rw [if_neg c1]
    by_cases c2 : c < 0x800
    · rw [if_pos c2]
      unfold utf8_to_unicode
      simp only [List.cons_append, List.nil_append, byteAt_cons_zero,
        byteAt_cons_succ]
      rw [if_neg (by omega), if_pos (by omega)]
      omega
    · rw [if_neg c2]
      by_cases c3 : c < 0x10000
      · rw [if_pos c3]
        unfold utf8_to_unicode
        simp only [List.cons_append, List.nil_append, byteAt_cons_zero,
          byteAt_cons_succ]
        rw [if_neg (by omega), if_neg (by omega), if_pos (by omega)]
        omega
      · rw [if_neg c3]
        unfold utf8_to_unicode
        simp only [List.cons_append, List.nil_append, byteAt_cons_zero,
          byteAt_cons_succ]
        rw [if_neg (by omega), if_neg (by omega), if_neg (by omega),
          if_pos (by omega)]
        omega

/-- The forward Final_Sigma scan stops at an embedded NUL byte, so its result
does not depend on which of two sufficiently large lengths bounds it. -/
theorem cfs_fwd_fuel_nul (ctx : UnicodeCtx) (src : List Nat) (k n n' : Nat)
    (hb : byteAt src k = 0) (hn : k ≤ n) (hn' : k ≤ n') :
    ∀ (fuel fuel' i : Nat), i ≤ k → k - i ≤ fuel → k - i ≤ fuel' →
      cfs_fwd_fuel ctx src n fuel i = cfs_fwd_fuel ctx src n' fuel' i := by
  intro fuel
  induction fuel with
  | zero =>
    intro fuel' i hik h1 h2
    have hik2 : i = k := by omega
    subst hik2
    cases fuel' with
    | zero => rfl
    | succ fuel' =>
      rw [cfs_fwd_fuel, cfs_fwd_fuel]
      rw [if_neg (by simp [hb])]
  | succ fuel ih =>
    intro fuel' i hik h1 h2
    by_cases hik2 : i = k
    · subst hik2
      cases fuel' with
      | zero =>
        rw [cfs_fwd_fuel, cfs_fwd_fuel]
        rw [if_neg (by simp [hb])]
      | succ fuel' =>
        rw [cfs_fwd_fuel, cfs_fwd_fuel]
        rw [if_neg (by simp [hb]), if_neg (by simp [hb])]
    · have hlt : i < k := by omega
      cases fuel' with
      | zero => omega
      | succ fuel' =>
        rw [cfs_fwd_fuel, cfs_fwd_fuel]
        by_cases hbz : byteAt src i = 0
        · rw [if_neg (by simp [hbz]), if_neg (by simp [hbz])]
        · rw [if_pos (show i < n ∧ ¬byteAt src i = 0 from ⟨by omega, hbz⟩),
            if_pos (show i < n' ∧ ¬byteAt src i = 0 from ⟨by omega, hbz⟩)]
          dsimp only
          by_cases hlead : byteAt src i &&& 0x80 = 0 ∨
              byteAt src i &&& 0xC0 = 0xC0
          · rw [if_pos hlead, if_pos hlead]
            by_cases hign : ctx.prop_case_ignorable
                (utf8_to_unicode (src.drop i)) = true
            · rw [if_pos hign, if_pos hign]
              exact ih fuel' (i + 1) (by omega) (by omega) (by omega)
            · rw [if_neg hign, if_neg hign]
          · rw [if_neg hlead, if_neg hlead]
            exact ih fuel' (i + 1) (by omega) (by omega) (by omega)

/-- check_final_sigma at an offset before an embedded NUL does not depend on
which of two sufficiently large lengths bounds the string. -/
theorem check_final_sigma_nul (ctx : UnicodeCtx) (src : List Nat)
    (k n n' offset : Nat) (hb : byteAt src k = 0) (hn : k ≤ n) (hn' : k ≤ n')
    (hoff : offset < k) :
    check_final_sigma ctx src n offset = check_final_sigma ctx src n' offset := by
  unfold check_final_sigma
  by_cases h0 : offset = 0
  · rw [if_pos h0, if_pos h0]
  · rw [if_neg h0, if_neg h0]
    by_cases hback : cfs_back ctx src (offset - 1) = false
    · rw [if_pos hback, if_pos hback]
    · rw [if_neg hback, if_neg hback, if_neg (by omega), if_neg (by omega)]
      unfold cfs_fwd
      exact cfs_fwd_fuel_nul ctx src k n n' hb hn hn' (n - (offset + 1))
        (n' - (offset + 1)) (offset + 1) (by omega) (by omega) (by omega)

theorem check_special_conditions_nul (ctx : UnicodeCtx) (conditions : Nat)
    (src : List Nat) (k n n' offset : Nat) (hb : byteAt src k = 0)
    (hn : k ≤ n) (hn' : k ≤ n') (hoff : offset < k) :
    check_special_conditions ctx conditions src n offset =
      check_special_conditions ctx conditions src n' offset := by
  unfold check_special_conditions
  by_cases hc0 : conditions = 0
  · rw [if_pos hc0, if_pos hc0]
  · rw [if_neg hc0, if_neg hc0]
    by_cases hcf : conditions = PG_U_FINAL_SIGMA
    · rw [if_pos hcf, if_pos hcf]
      exact check_final_sigma_nul ctx src k n n' offset hb hn hn' hoff
    · rw [if_neg hcf, if_neg hcf]

theorem resolveSpecial_nul (ctx : UnicodeCtx) (full : Bool)
    (casemap : Option pg_case_map) (src : List Nat) (k n n' offset : Nat)
    (hb : byteAt src k = 0) (hn : k ≤ n) (hn' : k ≤ n') (hoff : offset < k) :
    resolveSpecial ctx full casemap src n offset =
      resolveSpecial ctx full casemap src n' offset := by
  unfold resolveSpecial
  cases casemap with
  | none => rfl
  | some cm =>
    cases hsc : cm.special_case with
    | none => simp only [hsc]
    | some sp =>
      simp only [hsc]
      rw [check_special_conditions_nul ctx sp.conditions src k n n' offset hb
        hn hn' hoff]

theorem byteAt_append_len (a b : List Nat) :
    byteAt (a ++ b) a.length = byteAt b 0 := by
  have h := byteAt_append_right a b 0
  simpa using h

/-- The conversion loop ignores everything at and after an embedded NUL: over
a source of the form `valid-codepoints ++ NUL ++ junk`, the produced chunks
are the same for every `srclen` bound that covers the codepoints before the
NUL. -/
theorem convert_chunks_aux_nul (ctx : UnicodeCtx) {σ : Type}
    (wbnext : σ → Nat × σ) (kind : CaseKind) (rt atc full : Bool)
    (src rest : List Nat) (k n n' : Nat) (hn : k ≤ n) (hn' : k ≤ n') :
    ∀ (fuel : Nat) (cs pre : List Nat) (st : LoopSt σ),
      src = pre ++ utf8Enc cs ++ 0 :: rest →
      k = pre.length + (utf8Enc cs).length →
      (∀ c ∈ cs, ValidCp c) →
      convert_chunks_aux ctx wbnext kind rt atc full src n fuel pre.length st =
        convert_chunks_aux ctx wbnext kind rt atc full src n' fuel pre.length
          st := by
  intro fuel
  induction fuel with
  | zero => intro cs pre st _ _ _; rfl
  | succ fuel ih =>
    intro cs pre st hsrc hk hcs
    have hbk : byteAt src k = 0 := by
      rw [hsrc, hk,
        show pre.length + (utf8Enc cs).length = (pre ++ utf8Enc cs).length by
          simp,
        byteAt_append_len]
      rfl
    cases cs with
    | nil =>
      have hkp : k = pre.length := by
        simpa [utf8Enc_nil] using hk
      have hb0 : byteAt src pre.length = 0 := by rw [← hkp]; exact hbk
      rw [convert_chunks_aux, convert_chunks_aux]
      rw [if_neg (by simp [hb0]), if_neg (by simp [hb0])]
    | cons c cs' =>
      have hvc : ValidCp c := hcs c (by simp)
      have hbyte : byteAt src pre.length ≠ 0 := by
        rw [hsrc, utf8Enc_cons, List.append_assoc, byteAt_append_len,
          List.append_assoc]
        exact enc_head_ne_zero c hvc _
      have hdrop : src.drop pre.length =
          unicode_to_utf8 c ++ (utf8Enc cs' ++ 0 :: rest) := by
        rw [hsrc, utf8Enc_cons, List.append_assoc, List.drop_left,
          List.append_assoc]
      have hu1 : utf8_to_unicode (src.drop pre.length) = c := by
        rw [hdrop]
        exact decode_enc c hvc _
      have hofflt : pre.length < k := by
        rw [hk, utf8Enc_cons]
        have := enc_length_pos c
        simp only [List.length_append]
        omega
      rw [convert_chunks_aux, convert_chunks_aux]
      rw [if_pos (show byteAt src pre.length ≠ 0 ∧ pre.length < n from
            ⟨hbyte, by omega⟩),
          if_pos (show byteAt src pre.length ≠ 0 ∧ pre.length < n' from
            ⟨hbyte, by omega⟩)]
      dsimp only
      rw [resolveSpecial_nul ctx full _ src k n n' pre.length hbk (by omega)
        (by omega) (by omega)]
      have hoff' : pre.length +
          unicode_utf8len (utf8_to_unicode (src.drop pre.length)) =
            (pre ++ unicode_to_utf8 c).length := by
        rw [hu1, ← unicode_to_utf8_length]
        simp
      rw [hoff']
      have hsrc' : src =
          (pre ++ unicode_to_utf8 c) ++ utf8Enc cs' ++ 0 :: rest := by
        rw [hsrc, utf8Enc_cons]
        simp [List.append_assoc]
      have hk' : k = (pre ++ unicode_to_utf8 c).length +
          (utf8Enc cs').length := by
        rw [hk, utf8Enc_cons]
        simp only [List.length_append]
        omega
      rw [ih cs' (pre ++ unicode_to_utf8 c) _ hsrc' hk'
        (fun x hx => hcs x (by simp [hx]))]

/-- C9: a conversion call whose explicit length covers an embedded NUL stops
at the NUL: over a source `utf8Enc cs ++ 0 :: junk` with the NUL at byte
offset `k = (utf8Enc cs).length`, every call with `srclen ≥ k` (in
particular `srclen = k`, the length that stops at the NUL) returns the same
buffer contents and the same result length. -/
theorem claim_C9 (ctx : UnicodeCtx) {σ : Type} (wbnext : σ → Nat × σ)
    (kind : CaseKind) (rt atc full : Bool) (cs rest : List Nat)
    (n n' : Nat) (dst : Nat → Nat) (dstsize : Nat) (ws : σ)
    (hcs : ∀ c ∈ cs, ValidCp c)
    (hn : (utf8Enc cs).length ≤ n) (hn' : (utf8Enc cs).length ≤ n') :
    convert_case ctx dst dstsize (utf8Enc cs ++ 0 :: rest) n kind rt atc full
        wbnext ws =
      convert_case ctx dst dstsize (utf8Enc cs ++ 0 :: rest) n' kind rt atc
        full wbnext ws := by
  have hchunks : convert_chunks ctx (utf8Enc cs ++ 0 :: rest) n kind rt atc
      full wbnext ws =
        convert_chunks ctx (utf8Enc cs ++ 0 :: rest) n' kind rt atc full
          wbnext ws := by
    unfold convert_chunks
    dsimp only
    have h := convert_chunks_aux_nul ctx wbnext kind rt atc full
      (utf8Enc cs ++ 0 :: rest) rest (utf8Enc cs).length n n' hn hn'
      (utf8Enc cs ++ 0 :: rest).length cs []
      ⟨(if kind = CaseTitle then wbnext ws else (0, ws)).1, true, kind,
       (if kind = CaseTitle then wbnext ws else (0, ws)).2⟩
      (by simp) (by simp) hcs
    simpa using h
  rw [convert_case_eq, convert_case_eq, hchunks]

/-- C9 witness: over the source "ab\0cd" the conversion with explicit length
5 agrees with the conversion with length 2 (stopping at the NUL). -/
theorem claim_C9_witness :
    (∀ c ∈ [97, 98], ValidCp c) ∧
    convert_case demoCtx (fun _ => 0) 8 (utf8Enc [97, 98] ++ 0 :: [99, 100]) 5
        CaseUpper false false true nullWb () =
      convert_case demoCtx (fun _ => 0) 8 (utf8Enc [97, 98] ++ 0 :: [99, 100])
        2 CaseUpper false false true nullWb () :=
  ⟨by decide,
   claim_C9 demoCtx nullWb CaseUpper false false true [97, 98] [99, 100] 5 2
     (fun _ => 0) 8 () (by decide) (by decide) (by decide)⟩

/-- The simple mapping the engine applies to one codepoint: the table entry's
simple mapping for the kind, or the codepoint itself when absent. -/
def simpleCp (ctx : UnicodeCtx) (kind : CaseKind) (c : Nat) : Nat :=
  match find_case_map ctx.case_map c with
  | some m => m.simplemap kind
  | none => c

/-- A codepoint whose table entry (if any) carries no special case. -/
def noSpecial (ctx : UnicodeCtx) (c : Nat) : Bool :=
  match find_case_map ctx.case_map c with
  | some m => m.special_case == none
  | none => true

/-- A codepoint whose special case (if any) emits exactly its simple mapping
for the given kind, so the conversion's output for it does not depend on the
condition's outcome. -/
def benign (ctx : UnicodeCtx) (kind : CaseKind) (c : Nat) : Bool :=
  match find_case_map ctx.case_map c with
  | some m =>
    match m.special_case with
    | some sp => specialList (sp.map kind) == [m.simplemap kind]
    | none => true
  | none => true

theorem noSpecial_benign (ctx : UnicodeCtx) (kind : CaseKind) (c : Nat)
    (h : noSpecial ctx c = true) : benign ctx kind c = true := by
  unfold noSpecial at h
  unfold benign
  cases hf : find_case_map ctx.case_map c with
  | none => rfl
  | some m =>
    rw [hf] at h
    dsimp only at h ⊢
    cases hsc : m.special_case with
    | none => rfl
    | some sp =>
      rw [hsc] at h
      simp at h

theorem map_getD_range (l : List Nat) :
    (List.range l.length).map (fun i => l.getD i 0) = l := by
  induction l with
  | nil => rfl
  | cons a l ih =>
    rw [List.length_cons, List.range_succ_eq_map, List.map_cons, List.map_map]
    have h : ((fun i => (a :: l).getD i 0) ∘ Nat.succ) =
        (fun i => l.getD i 0) := by
      funext i
      rfl
    rw [h, ih]
    rfl

theorem byteAt_append_lt (x r : List Nat) (j : Nat) (h : j < x.length) :
    byteAt (x ++ r) j = x.getD j 0 := by
  unfold byteAt
  rw [List.getD_eq_getElem?_getD, List.getD_eq_getElem?_getD,
    List.getElem?_append_left h]

theorem readBytes_append (pre x r : List Nat) :
    readBytes (pre ++ (x ++ r)) pre.length x.length = x := by
  unfold readBytes
  have h : ∀ j ∈ List.range x.length,
      byteAt (pre ++ (x ++ r)) (pre.length + j) = x.getD j 0 := by
    intro j hj
    rw [byteAt_append_right, byteAt_append_lt x r j (List.mem_range.mp hj)]
  rw [List.map_congr_left h, map_getD_range]

theorem flatten_map_singleton (f : Nat → List Nat) (cs : List Nat) :
    (cs.map (fun c => [f c])).flatten = cs.map f := by
  induction cs with
  | nil => rfl
  | cons c cs ih => simp [ih]

theorem case_map_bsearch_fuel_mem (t : List pg_case_map) (ucs : Nat) :
    ∀ (fuel min maxp1 : Nat) (m : pg_case_map), maxp1 ≤ t.length →
      case_map_bsearch_fuel t ucs fuel min maxp1 = some m → m ∈ t := by
  intro fuel
  induction fuel with
  | zero =>
    intro min maxp1 m _ h
    rw [case_map_bsearch_fuel] at h
    exact Option.noConfusion h
  | succ fuel ih =>
    intro min maxp1 m hlen h
    rw [case_map_bsearch_fuel] at h
    by_cases hmm : min < maxp1
    · rw [if_pos hmm] at h
      dsimp only at h
      by_cases h1 : ucs > (t.getD ((min + maxp1 - 1) / 2) dummyEntry).codepoint
      · rw [if_pos h1] at h
        exact ih _ _ _ hlen h
      · rw [if_neg h1] at h
        by_cases h2 : ucs <
            (t.getD ((min + maxp1 - 1) / 2) dummyEntry).codepoint
        · rw [if_pos h2] at h
          exact ih _ _ _ (by omega) h
        · rw [if_neg h2] at h
          have heq := Option.some.inj h
          rw [← heq]
          have hmid : (min + maxp1 - 1) / 2 < t.length := by omega
          rw [List.getD_eq_getElem t dummyEntry hmid]
          exact List.getElem_mem hmid
    · rw [if_neg hmm] at h
      exact Option.noConfusion h

theorem find_case_map_mem (t : List pg_case_map) (ucs : Nat)
    (m : pg_case_map) (h : find_case_map t ucs = some m) : m ∈ t := by
  unfold find_case_map at h
  by_cases hu : ucs < 0x80
  · rw [if_pos hu] at h
    exact List.getElem?_mem h
  · rw [if_neg hu] at h
    exact case_map_bsearch_fuel_mem t ucs _ 0 t.length m (Nat.le_refl _) h

theorem resolveSpecial_eq_some (ctx : UnicodeCtx) (full : Bool)
    (casemap : Option pg_case_map) (src : List Nat) (srclen srcoff : Nat)
    (sp : pg_special_case)
    (h : resolveSpecial ctx full casemap src srclen srcoff = some sp) :
    ∃ m : pg_case_map, casemap = some m ∧ m.special_case = some sp := by
  unfold resolveSpecial at h
  cases casemap with
  | none => exact Option.noConfusion h
  | some m =>
    dsimp only at h
    refine ⟨m, rfl, ?_⟩
    cases hsc : m.special_case with
    | none =>
      rw [hsc] at h
      exact Option.noConfusion h
    | some sp' =>
      rw [hsc] at h
      dsimp only at h
      split_ifs at h
      all_goals first
        | exact h
        | exact Option.noConfusion h

/-- For a non-title conversion over a validly encoded codepoint sequence in
which every codepoint's special case (if any) is benign for the kind, the
produced chunks are exactly one encoded simple mapping per codepoint. -/
theorem convert_chunks_aux_simple (ctx : UnicodeCtx) {σ : Type}
    (wbnext : σ → Nat × σ) (kind : CaseKind) (rt atc full : Bool)
    (src : List Nat) (hkind : kind ≠ CaseTitle) :
    ∀ (cs pre : List Nat) (st : LoopSt σ) (fuel : Nat),
      src = pre ++ utf8Enc cs → cs.length ≤ fuel → st.chr = kind →
      (∀ c ∈ cs, ValidCp c ∧ benign ctx kind c = true) →
      convert_chunks_aux ctx wbnext kind rt atc full src src.length fuel
          pre.length st =
        cs.map (fun c => unicode_to_utf8 (simpleCp ctx kind c)) := by
  intro cs
  induction cs with
  | nil =>
    intro pre st fuel hsrc _ _ _
    have hlen : src.length = pre.length := by
      rw [hsrc, utf8Enc_nil]
      simp
    have hb : byteAt src pre.length = 0 :=
      List.getD_eq_default _ _ (by omega)
    cases fuel with
    | zero => rfl
    | succ f =>
      rw [convert_chunks_aux, if_neg (by simp [hb])]
      rfl
  | cons c cs' ih =>
    intro pre st fuel hsrc hfuel hchr hcs
    cases fuel with
    | zero =>
      rw [List.length_cons] at hfuel
      omega
    | succ f =>
      have hvc : ValidCp c := (hcs c (by simp)).1
      have hben : benign ctx kind c = true := (hcs c (by simp)).2
      have hdrop : src.drop pre.length = unicode_to_utf8 c ++ utf8Enc cs' := by
        rw [hsrc, List.drop_left, utf8Enc_cons]
      have hu1 : utf8_to_unicode (src.drop pre.length) = c := by
        rw [hdrop]
        exact decode_enc c hvc _
      have hbyte : byteAt src pre.length ≠ 0 := by
        rw [hsrc, byteAt_append_len, utf8Enc_cons]
        exact enc_head_ne_zero c hvc _
      have hlt : pre.length < src.length := by
        rw [hsrc, utf8Enc_cons]
        have := enc_length_pos c
        simp only [List.length_append]
        omega
      rw [convert_chunks_aux, if_pos ⟨hbyte, hlt⟩]
      dsimp only
      have htitle : titleStep ctx wbnext kind rt atc
          (utf8_to_unicode (src.drop pre.length)) pre.length st =
            (st, find_case_map ctx.case_map
              (utf8_to_unicode (src.drop pre.length))) := by
        unfold titleStep
        rw [if_neg hkind]
      rw [htitle]
      dsimp only
      rw [hu1, hchr]
      have hoff : pre.length + unicode_utf8len c =
          (pre ++ unicode_to_utf8 c).length := by
        rw [← unicode_to_utf8_length]
        simp
      rw [hoff]
      have hsrc' : src = (pre ++ unicode_to_utf8 c) ++ utf8Enc cs' := by
        rw [hsrc, utf8Enc_cons, List.append_assoc]
      rw [ih (pre ++ unicode_to_utf8 c) st f hsrc'
        (by rw [List.length_cons] at hfuel; omega) hchr
        (fun x hx => hcs x (by simp [hx]))]
      rw [List.map_cons]
      have hhead : stepChunks src pre.length (unicode_utf8len c) kind
          (find_case_map ctx.case_map c)
          (resolveSpecial ctx full (find_case_map ctx.case_map c) src
            src.length pre.length) =
          [unicode_to_utf8 (simpleCp ctx kind c)] := by
        cases hrs : resolveSpecial ctx full (find_case_map ctx.case_map c) src
            src.length pre.length with
        | some sp =>
          obtain ⟨m, hm, hsp⟩ := resolveSpecial_eq_some ctx full _ src
            src.length pre.length sp hrs
          unfold benign at hben
          rw [hm] at hben
          dsimp only at hben
          rw [hsp] at hben
          have hlist : specialList (sp.map kind) = [m.simplemap kind] :=
            eq_of_beq hben
          simp only [stepChunks, hlist, List.map_cons, List.map_nil]
          unfold simpleCp
          rw [hm]
        | none =>
          cases hf : find_case_map ctx.case_map c with
          | some m =>
            simp only [stepChunks]
            unfold simpleCp
            rw [hf]
          | none =>
            simp only [stepChunks]
            unfold simpleCp
            rw [hf]
            have hread : readBytes src pre.length (unicode_utf8len c) =
                unicode_to_utf8 c := by
              rw [← unicode_to_utf8_length, hsrc, utf8Enc_cons]
              exact readBytes_append pre (unicode_to_utf8 c) (utf8Enc cs')
            rw [hread]
      rw [hhead]
      rfl

/-- The written result string of a conversion call: the first `result_len`
bytes of the destination store. -/
def outBytes (r : (Nat → Nat) × Nat) : List Nat := (List.range r.2).map r.1

/-- The result string of `unicode_strupper` over a buffer of exactly the
required size. -/
def strupperStr (ctx : UnicodeCtx) (full : Bool) (s : List Nat) : List Nat :=
  outBytes (unicode_strupper ctx (fun _ => 0)
    ((unicode_strupper ctx (fun _ => 0) 0 s s.length full).2 + 1) s s.length
    full)

/-- The result string of `unicode_strlower` over a buffer of exactly the
required size. -/
def strlowerStr (ctx : UnicodeCtx) (full : Bool) (s : List Nat) : List Nat :=
  outBytes (unicode_strlower ctx (fun _ => 0)
    ((unicode_strlower ctx (fun _ => 0) 0 s s.length full).2 + 1) s s.length
    full)

/-- Reading back a conversion into an exactly-sized buffer yields the
flattened converted chunks. -/
theorem convert_case_outBytes (ctx : UnicodeCtx) {σ : Type}
    (wbnext : σ → Nat × σ) (ws : σ) (kind : CaseKind) (rt atc full : Bool)
    (s : List Nat) (srclen : Nat) :
    outBytes (convert_case ctx (fun _ => 0)
      ((convert_case ctx (fun _ => 0) 0 s srclen kind rt atc full wbnext
        ws).2 + 1) s srclen kind rt atc full wbnext ws) =
      (convert_chunks ctx s srclen kind rt atc full wbnext ws).flatten := by
  have hL : (convert_case ctx (fun _ => 0) 0 s srclen kind rt atc full wbnext
      ws).2 = chunksLen (convert_chunks ctx s srclen kind rt atc full wbnext
        ws) := by
    rw [convert_case_eq]
  rw [hL, convert_case_eq]
  unfold outBytes
  dsimp only
  rw [if_pos (by omega)]
  have hflat := chunksLen_eq_flatten_length
    (convert_chunks ctx s srclen kind rt atc full wbnext ws)
  have hpt : ∀ i ∈ List.range (chunksLen (convert_chunks ctx s srclen kind rt
      atc full wbnext ws)),
      writeBytes
        (layChunks (chunksLen (convert_chunks ctx s srclen kind rt atc full
          wbnext ws) + 1)
          (convert_chunks ctx s srclen kind rt atc full wbnext ws) 0
          (fun _ => 0))
        (chunksLen (convert_chunks ctx s srclen kind rt atc full wbnext ws))
        [0] i =
      (convert_chunks ctx s srclen kind rt atc full wbnext ws).flatten.getD
        i 0 := by
    intro i hi
    have hi' := List.mem_range.mp hi
    rw [writeBytes_out (Or.inl (by omega)),
      layChunks_all_read _ _ _ _ _ (by omega) (by omega) (by omega)]
    simp
  rw [List.map_congr_left hpt, hflat, map_getD_range]

theorem utf8Enc_length_ge (cs : List Nat) : cs.length ≤ (utf8Enc cs).length := by
  induction cs with
  | nil => simp [utf8Enc_nil]
  | cons c cs ih =>
    rw [utf8Enc_cons, List.length_cons, List.length_append]
    have := enc_length_pos c
    omega

/-- The flattened chunks of a non-title conversion over benign valid
codepoints are the encoding of the pointwise simple mappings. -/
theorem convert_chunks_flatten_simple (kind : CaseKind)
    (hkind : kind ≠ CaseTitle) (full : Bool) (cs : List Nat)
    (h : ∀ c ∈ cs, ValidCp c ∧ benign demoCtx kind c = true) :
    (convert_chunks demoCtx (utf8Enc cs) (utf8Enc cs).length kind false false
      full nullWb ()).flatten =
      utf8Enc (cs.map (simpleCp demoCtx kind)) := by
  unfold convert_chunks
  dsimp only
  rw [if_neg hkind]
  have haux := convert_chunks_aux_simple demoCtx nullWb kind false false full
    (utf8Enc cs) hkind cs [] ⟨(0, ()).1, true, kind, (0, ()).2⟩
    (utf8Enc cs).length (by simp) (utf8Enc_length_ge cs) rfl h
  have haux' := congrArg List.flatten haux
  rw [show ([] : List Nat).length = 0 from rfl] at haux'
  rw [haux']
  rw [utf8Enc, List.map_map]
  rfl

theorem case_map_bsearch_fuel_codepoint (t : List pg_case_map) (ucs : Nat) :
    ∀ (fuel min maxp1 : Nat) (m : pg_case_map),
      case_map_bsearch_fuel t ucs fuel min maxp1 = some m →
      m.codepoint = ucs := by
  intro fuel
  induction fuel with
  | zero =>
    intro min maxp1 m h
    rw [case_map_bsearch_fuel] at h
    exact Option.noConfusion h
  | succ fuel ih =>
    intro min maxp1 m h
    rw [case_map_bsearch_fuel] at h
    by_cases hmm : min < maxp1
    · rw [if_pos hmm] at h
      dsimp only at h
      by_cases h1 : ucs > (t.getD ((min + maxp1 - 1) / 2) dummyEntry).codepoint
      · rw [if_pos h1] at h
        exact ih _ _ _ h
      · rw [if_neg h1] at h
        by_cases h2 : ucs <
            (t.getD ((min + maxp1 - 1) / 2) dummyEntry).codepoint
        · rw [if_pos h2] at h
          exact ih _ _ _ h
        · rw [if_neg h2] at h
          rw [← Option.some.inj h]
          omega
    · rw [if_neg hmm] at h
      exact Option.noConfusion h

set_option maxRecDepth 100000 in
/-- Over the modelled table, a successful lookup returns the entry keyed by
the looked-up codepoint. -/
theorem find_case_map_demo_codepoint (c : Nat) (m : pg_case_map)
    (h : find_case_map case_map_demo c = some m) : m.codepoint = c := by
  unfold find_case_map at h
  by_cases hc : c < 0x80
  · rw [if_pos hc] at h
    have hm : m = case_map_demo.getD c dummyEntry := by
      rw [List.getD_eq_getElem?_getD, h]
      rfl
    rw [hm]
    have hascii : ∀ i : Nat, i < 128 →
        (case_map_demo.getD i dummyEntry).codepoint = i := by decide
    exact hascii c hc
  · rw [if_neg hc] at h
    exact case_map_bsearch_fuel_codepoint _ _ _ _ _ _ h

set_option maxRecDepth 100000 in
/-- The modelled table's upper mappings are valid, benign and idempotent. -/
theorem upperFact : case_map_demo.all (fun m =>
    (m.codepoint == 0) ||
    (decide (ValidCp (m.simplemap CaseUpper)) &&
     benign demoCtx CaseUpper (m.simplemap CaseUpper) &&
     (simpleCp demoCtx CaseUpper (m.simplemap CaseUpper) ==
      m.simplemap CaseUpper))) = true := by
  decide

set_option maxRecDepth 100000 in
/-- The modelled table's lower mappings are valid, benign and idempotent. -/
theorem lowerFact : case_map_demo.all (fun m =>
    (m.codepoint == 0) ||
    (decide (ValidCp (m.simplemap CaseLower)) &&
     benign demoCtx CaseLower (m.simplemap CaseLower) &&
     (simpleCp demoCtx CaseLower (m.simplemap CaseLower) ==
      m.simplemap CaseLower))) = true := by
  decide

theorem simpleCp_step_good (kind : CaseKind)
    (hfact : case_map_demo.all (fun m =>
      (m.codepoint == 0) ||
      (decide (ValidCp (m.simplemap kind)) &&
       benign demoCtx kind (m.simplemap kind) &&
       (simpleCp demoCtx kind (m.simplemap kind) == m.simplemap kind))) = true)
    (c : Nat) (hv : ValidCp c) (hb : benign demoCtx kind c = true) :
    ValidCp (simpleCp demoCtx kind c)
    ∧ benign demoCtx kind (simpleCp demoCtx kind c) = true
    ∧ simpleCp demoCtx kind (simpleCp demoCtx kind c) =
        simpleCp demoCtx kind c := by
  cases hf : find_case_map demoCtx.case_map c with
  | none =>
    have he : simpleCp demoCtx kind c = c := by
      unfold simpleCp
      rw [hf]
    rw [he]
    exact ⟨hv, hb, he⟩
  | some m =>
    have hmem := find_case_map_mem _ _ _ hf
    have hcp := find_case_map_demo_codepoint c m hf
    have hall := List.all_eq_true.mp hfact m hmem
    rw [Bool.or_eq_true] at hall
    rcases hall with hz | hall
    · exfalso
      have hz' := eq_of_beq hz
      obtain ⟨hpos, _⟩ := hv
      omega
    rw [Bool.and_eq_true, Bool.and_eq_true] at hall
    obtain ⟨⟨hv', hb'⟩, hid⟩ := hall
    have he : simpleCp demoCtx kind c = m.simplemap kind := by
      unfold simpleCp
      rw [hf]
    rw [he]
    exact ⟨of_decide_eq_true hv', hb', eq_of_beq hid⟩

theorem map_simpleCp_good (kind : CaseKind)
    (hfact : case_map_demo.all (fun m =>
      (m.codepoint == 0) ||
      (decide (ValidCp (m.simplemap kind)) &&
       benign demoCtx kind (m.simplemap kind) &&
       (simpleCp demoCtx kind (m.simplemap kind) == m.simplemap kind))) = true)
    (cs : List Nat) (h : ∀ c ∈ cs, ValidCp c ∧ benign demoCtx kind c = true) :
    ∀ c' ∈ cs.map (simpleCp demoCtx kind),
      ValidCp c' ∧ benign demoCtx kind c' = true := by
  intro c' hc'
  obtain ⟨c, hc, he⟩ := List.mem_map.mp hc'
  rw [← he]
  have hg := simpleCp_step_good kind hfact c (h c hc).1 (h c hc).2
  exact ⟨hg.1, hg.2.1⟩

theorem map_simpleCp_idem (kind : CaseKind)
    (hfact : case_map_demo.all (fun m =>
      (m.codepoint == 0) ||
      (decide (ValidCp (m.simplemap kind)) &&
       benign demoCtx kind (m.simplemap kind) &&
       (simpleCp demoCtx kind (m.simplemap kind) == m.simplemap kind))) = true)
    (cs : List Nat) (h : ∀ c ∈ cs, ValidCp c ∧ benign demoCtx kind c = true) :
    (cs.map (simpleCp demoCtx kind)).map (simpleCp demoCtx kind) =
      cs.map (simpleCp demoCtx kind) := by
  rw [List.map_map]
  apply List.map_congr_left
  intro c hc
  show simpleCp demoCtx kind (simpleCp demoCtx kind c) =
    simpleCp demoCtx kind c
  exact (simpleCp_step_good kind hfact c (h c hc).1 (h c hc).2).2.2

theorem strupperStr_simple (full : Bool) (cs : List Nat)
    (h : ∀ c ∈ cs, ValidCp c ∧ benign demoCtx CaseUpper c = true) :
    strupperStr demoCtx full (utf8Enc cs) =
      utf8Enc (cs.map (simpleCp demoCtx CaseUpper)) := by
  unfold strupperStr unicode_strupper
  rw [convert_case_outBytes demoCtx nullWb () CaseUpper false false full
    (utf8Enc cs) (utf8Enc cs).length]
  exact convert_chunks_flatten_simple CaseUpper (by simp) full cs h

theorem strlowerStr_simple (full : Bool) (cs : List Nat)
    (h : ∀ c ∈ cs, ValidCp c ∧ benign demoCtx CaseLower c = true) :
    strlowerStr demoCtx full (utf8Enc cs) =
      utf8Enc (cs.map (simpleCp demoCtx CaseLower)) := by
  unfold strlowerStr unicode_strlower
  rw [convert_case_outBytes demoCtx nullWb () CaseLower false false full
    (utf8Enc cs) (utf8Enc cs).length]
  exact convert_chunks_flatten_simple CaseLower (by simp) full cs h

/-- C7: over the modelled table, for every string of codepoints that have no
special mapping, uppercasing and lowercasing through `unicode_strupper` /
`unicode_strlower` are idempotent (in both mapping modes). -/
theorem claim_C7 (full : Bool) (cs : List Nat)
    (h : ∀ c ∈ cs, ValidCp c ∧ noSpecial demoCtx c = true) :
    strupperStr demoCtx full (strupperStr demoCtx full (utf8Enc cs)) =
      strupperStr demoCtx full (utf8Enc cs)
    ∧ strlowerStr demoCtx full (strlowerStr demoCtx full (utf8Enc cs)) =
      strlowerStr demoCtx full (utf8Enc cs) := by
  constructor
  · have h1 : ∀ c ∈ cs, ValidCp c ∧ benign demoCtx CaseUpper c = true :=
      fun c hc => ⟨(h c hc).1, noSpecial_benign demoCtx CaseUpper c (h c hc).2⟩
    have e1 := strupperStr_simple full cs h1
    have h2 := map_simpleCp_good CaseUpper upperFact cs h1
    have e2 := strupperStr_simple full (cs.map (simpleCp demoCtx CaseUpper)) h2
    rw [e1, e2, map_simpleCp_idem CaseUpper upperFact cs h1]
  · have h1 : ∀ c ∈ cs, ValidCp c ∧ benign demoCtx CaseLower c = true :=
      fun c hc => ⟨(h c hc).1, noSpecial_benign demoCtx CaseLower c (h c hc).2⟩
    have e1 := strlowerStr_simple full cs h1
    have h2 := map_simpleCp_good CaseLower lowerFact cs h1
    have e2 := strlowerStr_simple full (cs.map (simpleCp demoCtx CaseLower)) h2
    rw [e1, e2, map_simpleCp_idem CaseLower lowerFact cs h1]

set_option maxRecDepth 100000 in
/-- C7 witness: the string "hσ" consists of valid codepoints without special
mappings, and repeated uppercasing and lowercasing are idempotent on it. -/
theorem claim_C7_witness :
    (∀ c ∈ [104, 0x3C3], ValidCp c ∧ noSpecial demoCtx c = true)
    ∧ (strupperStr demoCtx true
        (strupperStr demoCtx true (utf8Enc [104, 0x3C3])) =
          strupperStr demoCtx true (utf8Enc [104, 0x3C3])
       ∧ strlowerStr demoCtx true
          (strlowerStr demoCtx true (utf8Enc [104, 0x3C3])) =
            strlowerStr demoCtx true (utf8Enc [104, 0x3C3])) :=
  ⟨by decide, claim_C7 true [104, 0x3C3] (by decide)⟩

/-- The content bytes actually laid into the buffer: the flattening of the
leading chunks that fit under the capacity rule. -/
def laidChunks (dstsize : Nat) (cks : List (List Nat)) : List Nat :=
  (cks.take (fitCount dstsize cks 0)).flatten

theorem flatten_take_is_take (cks : List (List Nat)) (n : Nat) :
    (cks.take n).flatten = cks.flatten.take (cks.take n).flatten.length := by
  have h : cks.flatten = (cks.take n).flatten ++ (cks.drop n).flatten := by
    rw [← List.flatten_append, List.take_append_drop]
  conv_rhs => rw [h]
  rw [List.take_left]

theorem laidChunks_length_le (dstsize : Nat) (cks : List (List Nat)) :
    (laidChunks dstsize cks).length ≤ chunksLen cks := by
  unfold laidChunks
  rw [← chunksLen_eq_flatten_length]
  exact chunksLen_take_le cks _

/-- C10: the content bytes written by a conversion (NUL aside) are exactly a
codepoint-chunk-aligned prefix of the full converted string — each emitted
codepoint's encoding is laid completely (when it fits below the capacity
together with the bytes before it) or not at all — and everything outside
that prefix is only touched by the conditional NUL terminator. -/
theorem claim_C10 (ctx : UnicodeCtx) {σ : Type} (wbnext : σ → Nat × σ)
    (kind : CaseKind) (rt atc full : Bool) (src : List Nat) (srclen : Nat)
    (dst : Nat → Nat) (dstsize : Nat) (ws : σ) :
    laidChunks dstsize (convert_chunks ctx src srclen kind rt atc full wbnext
        ws) =
      (convert_chunks ctx src srclen kind rt atc full wbnext
        ws).flatten.take
        (laidChunks dstsize
          (convert_chunks ctx src srclen kind rt atc full wbnext ws)).length
    ∧ ∀ i : Nat,
        (convert_case ctx dst dstsize src srclen kind rt atc full wbnext
          ws).1 i =
          if i < (laidChunks dstsize
              (convert_chunks ctx src srclen kind rt atc full wbnext
                ws)).length then
            (laidChunks dstsize
              (convert_chunks ctx src srclen kind rt atc full wbnext
                ws)).getD i 0
          else if i = (convert_case ctx dst dstsize src srclen kind rt atc
              full wbnext ws).2 ∧
            (convert_case ctx dst dstsize src srclen kind rt atc full wbnext
              ws).2 < dstsize then 0
          else dst i := by
  constructor
  · exact flatten_take_is_take _ _
  · intro i
    rw [convert_case_eq]
    dsimp only
    have hlaid : (laidChunks dstsize
        (convert_chunks ctx src srclen kind rt atc full wbnext ws)).length =
          chunksLen ((convert_chunks ctx src srclen kind rt atc full wbnext
            ws).take
            (fitCount dstsize
              (convert_chunks ctx src srclen kind rt atc full wbnext ws)
              0)) := by
      unfold laidChunks
      rw [chunksLen_eq_flatten_length]
    have hle := laidChunks_length_le dstsize
      (convert_chunks ctx src srclen kind rt atc full wbnext ws)
    by_cases hc : chunksLen (convert_chunks ctx src srclen kind rt atc full
        wbnext ws) < dstsize
    · rw [if_pos hc]
      by_cases h1 : i < (laidChunks dstsize
          (convert_chunks ctx src srclen kind rt atc full wbnext ws)).length
      · rw [if_pos h1, writeBytes_out (Or.inl (by omega)), layChunks_fit,
          if_pos (by rw [← hlaid]; omega)]
        unfold laidChunks
        rw [Nat.sub_zero]
      · rw [if_neg h1]
        by_cases h2 : i = chunksLen (convert_chunks ctx src srclen kind rt atc
            full wbnext ws)
        · rw [if_pos ⟨h2, hc⟩, writeBytes_at (by omega)
            (by simp [List.length]; omega)]
          rw [h2, Nat.sub_self]
          rfl
        · rw [if_neg (by intro hcon; exact h2 hcon.1),
            writeBytes_out (by simp [List.length]; omega), layChunks_fit,
            if_neg (by rw [← hlaid]; omega)]
    · rw [if_neg hc]
      by_cases h1 : i < (laidChunks dstsize
          (convert_chunks ctx src srclen kind rt atc full wbnext ws)).length
      · rw [if_pos h1, layChunks_fit, if_pos (by rw [← hlaid]; omega)]
        unfold laidChunks
        rw [Nat.sub_zero]
      · rw [if_neg h1, if_neg (by intro hcon; exact hc hcon.2), layChunks_fit,
          if_neg (by rw [← hlaid]; omega)]
